import Mathlib

/-!
Shallow embedding of the waved EPD display driver core
(src/lib/display.cpp) together with proofs about the update pipeline.

Panel geometry constants (epd_width, epd_height, buf_frame, ...) are
declared in the display header, which is not part of the sources here;
the embedding therefore keeps them as explicit parameters named W, H
and bufFrame.  Machine arithmetic on uint32 values is modelled on Nat;
wherever the C++ code can wrap around 2^32 (the coordinate transform in
push_update and its bounds checks) we reduce modulo u32mod = 2^32
explicitly.
-/

set_option autoImplicit false

namespace Waved

/-- Modelled from the spec: `UpdateRegion` is the axis-aligned rectangle
`{top, left, width, height}` in EPD coordinates (declared in the display
header, not in `src/`). -/
structure UpdateRegion where
  top : Nat
  left : Nat
  width : Nat
  height : Nat
  deriving Repr, DecidableEq

/-- Modelled from the spec: `contains(x, y)` is a point-in-rectangle
test, half-open on right/bottom (declared in the display header). -/
def UpdateRegion.contains (r : UpdateRegion) (x y : Nat) : Bool :=
  decide (r.left ≤ x ∧ x < r.left + r.width ∧ r.top ≤ y ∧ y < r.top + r.height)

/-- Modelled from the spec: `extend(other)` enlarges a region to the
bounding union (min of tops/lefts, max of rights/bottoms); extending by
or from an empty region keeps the non-empty side, as required by the
shrink-to-active-region behaviour of immediate mode. -/
def UpdateRegion.extend (r other : UpdateRegion) : UpdateRegion :=
  if other.width = 0 ∨ other.height = 0 then r
  else if r.width = 0 ∨ r.height = 0 then other
  else
    let top := min r.top other.top
    let left := min r.left other.left
    { top := top
      left := left
      width := max (r.left + r.width) (other.left + other.width) - left
      height := max (r.top + r.height) (other.top + other.height) - top }

/-- Modelled from the spec: `extend(x, y)` enlarges a region to include
the single point `(x, y)` (declared in the display header). -/
def UpdateRegion.extendPoint (r : UpdateRegion) (x y : Nat) : UpdateRegion :=
  r.extend { top := y, left := x, width := 1, height := 1 }

/-- The number of intensity levels; `intensity_values = 32` in the
display header (5-bit pixel domain). -/
def intensity_values : Nat := 32

/-- The packing quantum: `buf_actual_depth = 8` EPD pixels per 16-bit
word. -/
def buf_actual_depth : Nat := 8

/-- One queued update request (ids, mode, immediacy, region and the
row-major target intensity buffer), as in the display header. -/
structure Update where
  id : List Nat
  mode : Nat
  immediate : Bool
  region : UpdateRegion
  buffer : List Nat
  deriving Repr, DecidableEq

/-- Modelled from the spec: `Update::apply` writes the update's buffer
into a panel-sized intensity array (flat, row-major with stride `W`),
respecting the update's region.  Offsets outside the region are left
unchanged. -/
def Update.apply (u : Update) (W : Nat) (intensities : Nat → Nat) : Nat → Nat :=
  fun off =>
    if u.region.contains (off % W) (off / W) then
      u.buffer.getD ((off / W - u.region.top) * u.region.width + (off % W - u.region.left)) 0
    else
      intensities off

/-- `Display::align_region`: expand a region so that `left` and `width`
are multiples of the packing quantum.  The source clears the low bits
with `left & ~mask` and rounds the padded width up with
`(pad_left + width + mask) & ~mask`, `mask = buf_actual_depth - 1 = 7`;
on 32-bit values these equal `8 * (left / 8)` and
`8 * ((pad_left + width + 7) / 8)`, which is how they are written here. -/
def align_region (region : UpdateRegion) : UpdateRegion :=
  if region.width % buf_actual_depth = 0 ∧ region.left % buf_actual_depth = 0 then
    region
  else
    let left := buf_actual_depth * (region.left / buf_actual_depth)
    let pad_left := region.left % buf_actual_depth
    { region with
      left := left
      width := buf_actual_depth *
        ((pad_left + region.width + (buf_actual_depth - 1)) / buf_actual_depth) }

theorem align_region_left_mod (r : UpdateRegion) :
    (align_region r).left % 8 = 0 := by
  unfold align_region
  split
  · rename_i h
    simpa [buf_actual_depth] using h.2
  · simp [buf_actual_depth, Nat.mul_mod_right]

theorem align_region_width_mod (r : UpdateRegion) :
    (align_region r).width % 8 = 0 := by
  unfold align_region
  split
  · rename_i h
    simpa [buf_actual_depth] using h.1
  · simp [buf_actual_depth, Nat.mul_mod_right]

theorem align_region_top (r : UpdateRegion) : (align_region r).top = r.top := by
  unfold align_region
  split <;> rfl

theorem align_region_height (r : UpdateRegion) :
    (align_region r).height = r.height := by
  unfold align_region
  split <;> rfl

theorem align_region_left_le (r : UpdateRegion) :
    (align_region r).left ≤ r.left := by
  unfold align_region
  split
  · exact Nat.le_refl _
  · exact Nat.mul_div_le r.left buf_actual_depth

theorem align_region_right_le (r : UpdateRegion) :
    r.left + r.width ≤ (align_region r).left + (align_region r).width := by
  unfold align_region
  split
  · exact Nat.le_refl _
  · simp only [buf_actual_depth]
    have h1 : 8 * (r.left / 8) + r.left % 8 = r.left := by
      omega
    have h2 : r.left % 8 + r.width ≤ 8 * ((r.left % 8 + r.width + 7) / 8) := by
      have hdm := Nat.div_add_mod (r.left % 8 + r.width + 7) 8
      have hlt : (r.left % 8 + r.width + 7) % 8 < 8 := Nat.mod_lt _ (by norm_num)
      omega
    omega

theorem align_region_of_aligned (r : UpdateRegion)
    (hw : r.width % 8 = 0) (hl : r.left % 8 = 0) : align_region r = r := by
  unfold align_region
  rw [if_pos]
  exact ⟨by simpa [buf_actual_depth] using hw, by simpa [buf_actual_depth] using hl⟩

theorem align_region_idem (r : UpdateRegion) :
    align_region (align_region r) = align_region r :=
  align_region_of_aligned _ (align_region_width_mod r) (align_region_left_mod r)

theorem align_region_contains (r : UpdateRegion) (x y : Nat)
    (h : r.contains x y = true) : (align_region r).contains x y = true := by
  have h1 := align_region_left_le r
  have h2 := align_region_right_le r
  have h3 := align_region_top r
  have h4 := align_region_height r
  simp only [UpdateRegion.contains, decide_eq_true_eq] at h ⊢
  rw [h3, h4]
  omega

/-- C7: `align_region` is idempotent, aligns `left` and `width` to
multiples of 8, contains the original region, and leaves `top` and
`height` unchanged. -/
theorem align_region_properties (r : UpdateRegion) :
    align_region (align_region r) = align_region r ∧
    (align_region r).left % 8 = 0 ∧
    (align_region r).width % 8 = 0 ∧
    (∀ x y, r.contains x y = true → (align_region r).contains x y = true) ∧
    (align_region r).top = r.top ∧
    (align_region r).height = r.height :=
  ⟨align_region_idem r, align_region_left_mod r, align_region_width_mod r,
    fun x y h => align_region_contains r x y h, align_region_top r,
    align_region_height r⟩

/-! ### Temperature read (`Display::update_temperature`) -/

/-- Size of the local `char buffer[12]` in `Display::update_temperature`. -/
def temp_buffer_size : Nat := 12

/-- `read(this->temp_sensor_fd, buffer, sizeof(buffer))`: the sensor
file contents are truncated to at most `sizeof(buffer) = 12` bytes. -/
def temp_read (data : List Nat) : List Nat := data.take temp_buffer_size

/-- Index at which `update_temperature` stores the null terminator: at
`size` when `size < sizeof(buffer)` and at `sizeof(buffer) - 1 = 11`
otherwise (source lines 374-378). -/
def temp_term_index (size : Nat) : Nat :=
  if temp_buffer_size ≤ size then temp_buffer_size - 1 else size

/-- C9: the temperature read takes at most 12 bytes, and the null
terminator is always stored within the 12-byte buffer: at index `size`
when `size < 12` and at index 11 when `size ≥ 12`. -/
theorem temp_term_index_in_bounds (data : List Nat) (size : Nat) :
    (temp_read data).length ≤ temp_buffer_size ∧
    temp_term_index size < temp_buffer_size ∧
    temp_term_index size = if size < 12 then size else 11 := by
  refine ⟨?_, ?_, ?_⟩
  · simp [temp_read]
  · unfold temp_term_index temp_buffer_size
    split <;> omega
  · unfold temp_term_index temp_buffer_size
    split <;> split <;> omega

/-! ### The vsync thread (`Display::run_vsync_thread`)

The vsync loop is driven by real-time waits and ioctls; the embedding
replaces the framebuffer and the condition variables by an explicit
event trace and an oracle for each loop iteration saying whether the
timed wait for `vsync_can_read` expired (`timedOut`), whether the
thread is being stopped (`stopping`), and how many frames the handed
batch contains. -/

/-- One observable action of the vsync thread.  `copyFrame page dest k`
is the memcpy of batch frame `k` into physical page `page` at byte
offset `dest = page * buf_frame` of the framebuffer; `blank on` is the
`FBIOBLANK` ioctl (`FB_BLANK_UNBLANK` when `on`, `FB_BLANK_POWERDOWN`
otherwise). -/
inductive VsyncEvent where
  | blank (isOn : Bool)
  | readTemperature
  | copyFrame (page : Nat) (dest : Nat) (k : Nat)
  | putVScreenInfo (yoffset : Nat)
  | panDisplay (yoffset : Nat)
  deriving Repr, DecidableEq

/-- `Display::set_power`: issues the `FBIOBLANK` ioctl only when the
requested state differs from the cached `power_state`. -/
def setPower (power want : Bool) : Bool × List VsyncEvent :=
  if want = power then (power, []) else (want, [VsyncEvent.blank want])

/-- The inner frame loop of `run_vsync_thread` (source lines 847-880):
for each of the `n` remaining frames, advance the physical page index
modulo 2, memcpy the frame, and schedule it with `FBIOPUT_VSCREENINFO`
for the very first frame ever and `FBIOPAN_DISPLAY` afterwards.
Returns the event list, the final page index and the final
`first_frame` flag. -/
def vsyncFrameLoop (bufFrame bufHeight : Nat) :
    Nat → Bool → Nat → Nat → List VsyncEvent × Nat × Bool
  | nextFrame, firstFrame, _, 0 => ([], nextFrame, firstFrame)
  | nextFrame, firstFrame, k, n + 1 =>
    let page := (nextFrame + 1) % 2
    let ioctlEvent :=
      if firstFrame then VsyncEvent.putVScreenInfo (page * bufHeight)
      else VsyncEvent.panDisplay (page * bufHeight)
    let rest := vsyncFrameLoop bufFrame bufHeight page false (k + 1) n
    (VsyncEvent.copyFrame page (page * bufFrame) k :: ioctlEvent :: rest.1,
      rest.2.1, rest.2.2)

/-- Thread-local state of the vsync loop: cached panel power, the
physical page index `next_frame` and the `first_frame` flag. -/
structure VsyncState where
  power : Bool
  nextFrame : Nat
  firstFrame : Bool
  deriving Repr, DecidableEq

/-- One iteration of the `run_vsync_thread` loop (source lines
819-892): wait for a batch with the `power_off_timeout`; on expiry
power the panel down and wait again without a timeout; once woken,
return if stopping, otherwise power the panel up, refresh the
temperature, and flip every frame of the batch.  The `Bool` in the
result records whether the thread returned (stopped). -/
def vsyncIteration (bufFrame bufHeight : Nat) (s : VsyncState)
    (timedOut stopping : Bool) (frames : Nat) :
    List VsyncEvent × VsyncState × Bool :=
  let offResult := if timedOut then setPower s.power false else (s.power, [])
  if stopping then
    (offResult.2, { s with power := offResult.1 }, true)
  else
    let onResult := setPower offResult.1 true
    let frameResult :=
      vsyncFrameLoop bufFrame bufHeight s.nextFrame s.firstFrame 0 frames
    (offResult.2 ++ onResult.2 ++ [VsyncEvent.readTemperature] ++ frameResult.1,
      { power := onResult.1, nextFrame := frameResult.2.1,
        firstFrame := frameResult.2.2 }, false)

/-- Several iterations of the vsync loop; the loop stops consuming
oracle inputs as soon as an iteration returns. -/
def vsyncRun (bufFrame bufHeight : Nat) :
    VsyncState → List (Bool × Bool × Nat) → List VsyncEvent × VsyncState
  | s, [] => ([], s)
  | s, input :: rest =>
    let step := vsyncIteration bufFrame bufHeight s input.1 input.2.1 input.2.2
    if step.2.2 then (step.1, step.2.1)
    else
      let tail := vsyncRun bufFrame bufHeight step.2.1 rest
      (step.1 ++ tail.1, tail.2)

/-- The physical pages and destination byte offsets of the memcpys in
an event trace, in order. -/
def copyTargets (evs : List VsyncEvent) : List (Nat × Nat) :=
  evs.filterMap fun e =>
    match e with
    | VsyncEvent.copyFrame page dest _ => some (page, dest)
    | _ => none

theorem copyTargets_append (l r : List VsyncEvent) :
    copyTargets (l ++ r) = copyTargets l ++ copyTargets r :=
  List.filterMap_append l r _

theorem vsyncFrameLoop_copyTargets (bufFrame bufHeight : Nat) :
    ∀ (n p : Nat) (ff : Bool) (k : Nat), p < 2 →
      (copyTargets (vsyncFrameLoop bufFrame bufHeight p ff k n).1).length = n ∧
      (vsyncFrameLoop bufFrame bufHeight p ff k n).2.1 = (p + n) % 2 ∧
      ∀ i, (copyTargets (vsyncFrameLoop bufFrame bufHeight p ff k n).1).get? i =
        if i < n then some ((p + i + 1) % 2, ((p + i + 1) % 2) * bufFrame)
        else none := by
  intro n
  induction n with
  | zero =>
    intro p ff k hp
    refine ⟨rfl, by simpa [vsyncFrameLoop] using (Nat.mod_eq_of_lt hp).symm, ?_⟩
    intro i
    simp [vsyncFrameLoop, copyTargets]
  | succ n ih =>
    intro p ff k hp
    have hpage : (p + 1) % 2 < 2 := Nat.mod_lt _ (by norm_num)
    obtain ⟨ihlen, ihfin, ihget⟩ := ih ((p + 1) % 2) false (k + 1) hpage
    have hev : copyTargets (vsyncFrameLoop bufFrame bufHeight p ff k (n + 1)).1 =
        ((p + 1) % 2, ((p + 1) % 2) * bufFrame) ::
          copyTargets (vsyncFrameLoop bufFrame bufHeight ((p + 1) % 2) false
            (k + 1) n).1 := by
      cases ff <;> simp [vsyncFrameLoop, copyTargets, List.filterMap_cons]
    refine ⟨?_, ?_, ?_⟩
    · rw [hev, List.length_cons, ihlen]
    · show (vsyncFrameLoop bufFrame bufHeight ((p + 1) % 2) false (k + 1) n).2.1 = _
      rw [ihfin, Nat.mod_add_mod]
      omega
    · intro i
      rw [hev]
      match i with
      | 0 => simp
      | i + 1 =>
        simp only [List.get?_cons_succ, ihget]
        have harith : ((p + 1) % 2 + i + 1) % 2 = (p + (i + 1) + 1) % 2 := by
          rw [Nat.add_right_comm ((p + 1) % 2) i 1, Nat.add_assoc, Nat.mod_add_mod]
          omega
        split <;> split <;> first
          | rfl
          | omega
          | rw [harith]

theorem copyTargets_setPower (a b : Bool) : copyTargets (setPower a b).2 = [] := by
  unfold setPower
  split <;> simp [copyTargets]

theorem vsyncIteration_stopping_eq (bufFrame bufHeight : Nat) (s : VsyncState)
    (timedOut : Bool) (frames : Nat) :
    vsyncIteration bufFrame bufHeight s timedOut true frames =
      ((if timedOut then setPower s.power false else (s.power, [])).2,
        { s with
          power := (if timedOut then setPower s.power false
            else (s.power, [])).1 }, true) := rfl

theorem vsyncIteration_running_eq (bufFrame bufHeight : Nat) (s : VsyncState)
    (timedOut : Bool) (frames : Nat) :
    vsyncIteration bufFrame bufHeight s timedOut false frames =
      ((if timedOut then setPower s.power false else (s.power, [])).2 ++
        (setPower (if timedOut then setPower s.power false
          else (s.power, [])).1 true).2 ++
        [VsyncEvent.readTemperature] ++
        (vsyncFrameLoop bufFrame bufHeight s.nextFrame s.firstFrame 0
          frames).1,
        { power := (setPower (if timedOut then setPower s.power false
            else (s.power, [])).1 true).1,
          nextFrame := (vsyncFrameLoop bufFrame bufHeight s.nextFrame
            s.firstFrame 0 frames).2.1,
          firstFrame := (vsyncFrameLoop bufFrame bufHeight s.nextFrame
            s.firstFrame 0 frames).2.2 }, false) := rfl

theorem copyTargets_timeoutEvents (s : VsyncState) (timedOut : Bool) :
    copyTargets
      (if timedOut then setPower s.power false else (s.power, [])).2 = [] := by
  cases timedOut
  · simp [copyTargets]
  · simpa using copyTargets_setPower s.power false

theorem vsyncIteration_copyTargets (bufFrame bufHeight : Nat) (s : VsyncState)
    (timedOut : Bool) (frames : Nat) (hp : s.nextFrame < 2) :
    (copyTargets (vsyncIteration bufFrame bufHeight s timedOut false
      frames).1).length = frames ∧
    (vsyncIteration bufFrame bufHeight s timedOut false
      frames).2.1.nextFrame = (s.nextFrame + frames) % 2 ∧
    ∀ i, (copyTargets (vsyncIteration bufFrame bufHeight s timedOut false
        frames).1).get? i =
      if i < frames then
        some ((s.nextFrame + i + 1) % 2, ((s.nextFrame + i + 1) % 2) * bufFrame)
      else none := by
  obtain ⟨len, fin, gets⟩ :=
    vsyncFrameLoop_copyTargets bufFrame bufHeight frames s.nextFrame
      s.firstFrame 0 hp
  have hevs : copyTargets (vsyncIteration bufFrame bufHeight s timedOut false
        frames).1 =
      copyTargets (vsyncFrameLoop bufFrame bufHeight s.nextFrame
        s.firstFrame 0 frames).1 := by
    rw [vsyncIteration_running_eq, copyTargets_append, copyTargets_append,
      copyTargets_append, copyTargets_timeoutEvents, copyTargets_setPower]
    simp [copyTargets]
  refine ⟨by rw [hevs]; exact len, ?_, by intro i; rw [hevs]; exact gets i⟩
  rw [vsyncIteration_running_eq]
  exact fin

theorem vsyncRun_copyTargets (bufFrame bufHeight : Nat) :
    ∀ (inputs : List (Bool × Bool × Nat)) (s : VsyncState), s.nextFrame < 2 →
      ∀ i pg d,
        (copyTargets (vsyncRun bufFrame bufHeight s inputs).1).get? i =
            some (pg, d) →
          pg = (s.nextFrame + i + 1) % 2 ∧ d = pg * bufFrame := by
  intro inputs
  induction inputs with
  | nil =>
    intro s hp i pg d h
    simp [vsyncRun, copyTargets] at h
  | cons input rest ih =>
    intro s hp i pg d h
    simp only [vsyncRun] at h
    cases hstop : input.2.1 with
    | true =>
      rw [hstop, vsyncIteration_stopping_eq] at h
      simp only [if_pos] at h
      rw [copyTargets_timeoutEvents] at h
      simp at h
    | false =>
      rw [hstop] at h
      obtain ⟨hlen, hfin, hget⟩ := vsyncIteration_copyTargets bufFrame
        bufHeight s input.1 input.2.2 hp
      rw [show (vsyncIteration bufFrame bufHeight s input.1 false
          input.2.2).2.2 = false from by rw [vsyncIteration_running_eq],
        if_neg (by simp)] at h
      rw [copyTargets_append] at h
      by_cases hi : i < (copyTargets (vsyncIteration bufFrame bufHeight s
          input.1 false input.2.2).1).length
      · rw [List.get?_append hi, hget i, if_pos (hlen ▸ hi)] at h
        simp only [Option.some.injEq, Prod.mk.injEq] at h
        exact ⟨h.1.symm, by rw [← h.1]; exact h.2.symm⟩
      · rw [List.get?_append_right (Nat.le_of_not_lt hi)] at h
        have hnf : (vsyncIteration bufFrame bufHeight s input.1 false
            input.2.2).2.1.nextFrame < 2 := by
          rw [hfin]; exact Nat.mod_lt _ (by norm_num)
        obtain ⟨h1, h2⟩ := ih _ hnf _ pg d h
        refine ⟨?_, h2⟩
        have hif : input.2.2 ≤ i := by
          rw [hlen] at hi; omega
        rw [h1, hfin, hlen, Nat.add_assoc, Nat.mod_add_mod]
        congr 1
        omega

/-- C8: when the vsync thread's timed wait expires without a batch
(oracle `timedOut = true`) while the panel is powered, the very first
action of the iteration is `FBIOBLANK FB_BLANK_POWERDOWN`; and once a
batch is consumed, `FBIOBLANK FB_BLANK_UNBLANK` is issued before the
first memcpy into the framebuffer: the power-on event sits at index 1
of the trace and every `copyFrame` event sits strictly later (the first
one at index 3). -/
theorem vsync_timeout_power_cycle (bufFrame bufHeight : Nat) (s : VsyncState)
    (frames : Nat) (hpow : s.power = true) (hfr : 0 < frames) :
    (vsyncIteration bufFrame bufHeight s true false frames).1.get? 0 =
      some (VsyncEvent.blank false) ∧
    (vsyncIteration bufFrame bufHeight s true false frames).1.get? 1 =
      some (VsyncEvent.blank true) ∧
    (vsyncIteration bufFrame bufHeight s true false frames).1.get? 3 =
      some (VsyncEvent.copyFrame ((s.nextFrame + 1) % 2)
        (((s.nextFrame + 1) % 2) * bufFrame) 0) ∧
    ∀ j page dest k,
      (vsyncIteration bufFrame bufHeight s true false frames).1.get? j =
        some (VsyncEvent.copyFrame page dest k) → 1 < j := by
  obtain ⟨n, rfl⟩ : ∃ n, frames = n + 1 := ⟨frames - 1, by omega⟩
  have hev : (vsyncIteration bufFrame bufHeight s true false (n + 1)).1 =
      VsyncEvent.blank false :: VsyncEvent.blank true ::
      VsyncEvent.readTemperature ::
      VsyncEvent.copyFrame ((s.nextFrame + 1) % 2)
        (((s.nextFrame + 1) % 2) * bufFrame) 0 ::
      (if s.firstFrame then
          VsyncEvent.putVScreenInfo (((s.nextFrame + 1) % 2) * bufHeight)
        else VsyncEvent.panDisplay (((s.nextFrame + 1) % 2) * bufHeight)) ::
      (vsyncFrameLoop bufFrame bufHeight ((s.nextFrame + 1) % 2) false 1
        n).1 := by
    rw [vsyncIteration_running_eq, hpow]
    simp only [setPower, if_pos, Bool.false_eq_true, if_false, if_true,
      Bool.true_eq_false, vsyncFrameLoop]
    rfl
  refine ⟨by rw [hev]; rfl, by rw [hev]; rfl, by rw [hev]; rfl, ?_⟩
  intro j page dest k hj
  rw [hev] at hj
  rcases j with _ | _ | _ | j
  · simp at hj
  · simp at hj
  · simp at hj
  · omega

theorem vsync_timeout_power_cycle_witness :
    (VsyncState.mk true 0 true).power = true ∧ 0 < 1 ∧
    (vsyncIteration 10 4 (VsyncState.mk true 0 true) true false 1).1.get? 0 =
      some (VsyncEvent.blank false) ∧
    (vsyncIteration 10 4 (VsyncState.mk true 0 true) true false 1).1.get? 1 =
      some (VsyncEvent.blank true) ∧
    (vsyncIteration 10 4 (VsyncState.mk true 0 true) true false 1).1.get? 3 =
      some (VsyncEvent.copyFrame 1 10 0) :=
  ⟨rfl, by decide,
    (vsync_timeout_power_cycle 10 4 (VsyncState.mk true 0 true) 1 rfl
      (by decide)).1,
    (vsync_timeout_power_cycle 10 4 (VsyncState.mk true 0 true) 1 rfl
      (by decide)).2.1,
    (vsync_timeout_power_cycle 10 4 (VsyncState.mk true 0 true) 1 rfl
      (by decide)).2.2.1⟩

/-- C10: in `run_vsync_thread` the physical page index starts at 0 and
is incremented modulo 2 before each copy, so over a whole run of the
thread the `n`-th frame displayed (0-based, counted across all batches)
is copied to page `(n + 1) % 2` at byte offset `((n + 1) % 2) *
buf_frame`; in particular the very first frame goes to page 1 at offset
`buf_frame`, not to page 0. -/
theorem vsync_page_alternation (bufFrame bufHeight : Nat) (power : Bool)
    (inputs : List (Bool × Bool × Nat)) (i pg d : Nat)
    (h : (copyTargets (vsyncRun bufFrame bufHeight
      (VsyncState.mk power 0 true) inputs).1).get? i = some (pg, d)) :
    pg = (i + 1) % 2 ∧ d = ((i + 1) % 2) * bufFrame ∧
    (i = 0 → pg = 1 ∧ d = bufFrame) := by
  obtain ⟨h1, h2⟩ := vsyncRun_copyTargets bufFrame bufHeight inputs
    (VsyncState.mk power 0 true) (by norm_num) i pg d h
  have h1' : pg = (i + 1) % 2 := by simpa using h1
  refine ⟨h1', by rw [h2, h1'], ?_⟩
  rintro rfl
  refine ⟨by simpa using h1', ?_⟩
  rw [h2, h1']
  norm_num

theorem vsync_page_alternation_witness :
    (copyTargets (vsyncRun 100 4 (VsyncState.mk true 0 true)
      [(false, false, 3)]).1).get? 1 = some (0, 0) ∧
    (0 : Nat) = (1 + 1) % 2 ∧ (0 : Nat) = ((1 + 1) % 2) * 100 ∧
    ((1 : Nat) = 0 → (0 : Nat) = 1 ∧ (0 : Nat) = 100) :=
  ⟨by decide,
    vsync_page_alternation 100 4 true [(false, false, 3)] 1 0 0 (by decide)⟩

/-! ### `push_update` and the coordinate transform

`push_update` (source lines 401-462) computes on `std::uint32_t`
values; subtraction, addition and multiplication of region coordinates
wrap modulo `2^32`, which the embedding makes explicit. -/

/-- The modulus of `std::uint32_t` arithmetic. -/
def u32mod : Nat := 4294967296

/-- Wrapping 32-bit subtraction. -/
def u32sub (a b : Nat) : Nat := (a % u32mod + u32mod - b % u32mod) % u32mod

/-- Wrapping 32-bit addition. -/
def u32add (a b : Nat) : Nat := (a + b) % u32mod

/-- Wrapping 32-bit multiplication. -/
def u32mul (a b : Nat) : Nat := (a * b) % u32mod

theorem u32mod_pos : 0 < u32mod := by unfold u32mod; norm_num

instance : NeZero u32mod := ⟨Nat.pos_iff_ne_zero.mp u32mod_pos⟩

theorem u32sub_lt (a b : Nat) : u32sub a b < u32mod :=
  Nat.mod_lt _ u32mod_pos

theorem u32sub_cast (a b : Nat) :
    ((u32sub a b : Nat) : ZMod u32mod) = (a : ZMod u32mod) - b := by
  unfold u32sub
  have hle : b % u32mod ≤ a % u32mod + u32mod :=
    le_trans (le_of_lt (Nat.mod_lt _ u32mod_pos)) (Nat.le_add_left _ _)
  rw [ZMod.natCast_mod, Nat.cast_sub hle, Nat.cast_add, ZMod.natCast_mod,
    ZMod.natCast_mod, ZMod.natCast_self, add_zero]

theorem u32_eq_of_cast_eq (a b : Nat) (ha : a < u32mod) (hb : b < u32mod)
    (h : (a : ZMod u32mod) = b) : a = b := by
  have hval := congrArg ZMod.val h
  rwa [ZMod.val_cast_of_lt ha, ZMod.val_cast_of_lt hb] at hval

theorem u32sub_eq (a b : Nat) (ha : a < u32mod) (hb : b < u32mod) :
    u32sub a b = if b ≤ a then a - b else a + u32mod - b := by
  unfold u32sub
  rw [Nat.mod_eq_of_lt ha, Nat.mod_eq_of_lt hb]
  unfold u32mod at *
  split <;> omega

/-- The region coordinate transform of `push_update` (source lines
422-427): from reMarkable (portrait) coordinates to EPD (landscape)
coordinates, `top := epd_height - left - width`,
`left := epd_width - top - height`, swapping width and height, in
wrapping `uint32` arithmetic. -/
def transformRegion (W H : Nat) (r : UpdateRegion) : UpdateRegion :=
  { top := u32sub (u32sub H r.left) r.width
    left := u32sub (u32sub W r.top) r.height
    width := r.height
    height := r.width }

/-- C6 counterexample: on a non-square panel (here 1872 by 1404, the
panel this driver targets), applying the forward transform twice to the
in-canvas region with top 0, left 0, width 2, height 1 does not return
the original region: the double transform shifts left by `W - H`. -/
theorem transform_twice_not_involutive :
    (UpdateRegion.mk 0 0 2 1).left + (UpdateRegion.mk 0 0 2 1).width ≤ 1872 ∧
    (UpdateRegion.mk 0 0 2 1).top + (UpdateRegion.mk 0 0 2 1).height ≤ 1404 ∧
    transformRegion 1872 1404 (transformRegion 1872 1404
      (UpdateRegion.mk 0 0 2 1)) ≠ UpdateRegion.mk 0 0 2 1 := by
  refine ⟨by norm_num, by norm_num, ?_⟩
  intro h
  have := congrArg UpdateRegion.left h
  simp only [transformRegion, u32sub, u32mod] at this
  norm_num at this

/-- C6 amended: the forward transform is inverted by the forward
transform with the roles of `epd_width` and `epd_height` exchanged:
for any region with `uint32` fields, applying `transformRegion W H` and
then `transformRegion H W` yields the original region. -/
theorem transform_swap_involutive (W H : Nat) (r : UpdateRegion)
    (ht : r.top < u32mod) (hl : r.left < u32mod) :
    transformRegion H W (transformRegion W H r) = r := by
  obtain ⟨t, l, w, h⟩ := r
  have h1 : u32sub (u32sub W (u32sub (u32sub W t) h)) h = t := by
    refine u32_eq_of_cast_eq _ _ (u32sub_lt _ _) ht ?_
    rw [u32sub_cast, u32sub_cast, u32sub_cast, u32sub_cast]
    ring
  have h2 : u32sub (u32sub H (u32sub (u32sub H l) w)) w = l := by
    refine u32_eq_of_cast_eq _ _ (u32sub_lt _ _) hl ?_
    rw [u32sub_cast, u32sub_cast, u32sub_cast, u32sub_cast]
    ring
  simp [transformRegion, h1, h2]

theorem transform_swap_involutive_witness :
    (3 : Nat) < u32mod ∧ (5 : Nat) < u32mod ∧
    transformRegion 1404 1872 (transformRegion 1872 1404
      (UpdateRegion.mk 3 5 7 2)) = UpdateRegion.mk 3 5 7 2 :=
  ⟨by decide, by decide,
    transform_swap_involutive 1872 1404 (UpdateRegion.mk 3 5 7 2)
      (by decide) (by decide)⟩

/-- The buffer transposition of `push_update` (source lines 414-420):
`trans_buffer[k] = buffer[i * width + j] & (intensity_values - 1)` with
`i = height - (k % height) - 1` and `j = width - (k / height) - 1`
(the `k % height` and `k / height` happen on `size_t` indices that stay
far below `2^64`, so plain Nat arithmetic is exact here; masking with
`intensity_values - 1 = 31` equals reduction mod 32). -/
def transBuffer (region : UpdateRegion) (buffer : List Nat) : List Nat :=
  (List.range buffer.length).map fun k =>
    buffer.getD ((region.height - (k % region.height) - 1) * region.width +
      (region.width - (k / region.height) - 1)) 0 % intensity_values

/-- Result of `Display::push_update`: the returned Bool, the pending
queue afterwards, and the `next_update_id` counter afterwards. -/
structure PushResult where
  ok : Bool
  pending : List Update
  nextId : Nat
  deriving Repr, DecidableEq

/-- `Display::push_update` (source lines 401-462): reject if the buffer
length differs from `width * height` (computed in `uint32`), transform
buffer and region into EPD coordinates, reject if the transformed
region fails the bounds checks (all comparisons in `uint32`), otherwise
enqueue a single update carrying the next monotonic id. -/
def push_update (W H : Nat) (pending : List Update) (nextId : Nat)
    (mode : Nat) (immediate : Bool) (region : UpdateRegion)
    (buffer : List Nat) : PushResult :=
  if buffer.length ≠ u32mul region.width region.height then
    PushResult.mk false pending nextId
  else
    let trans := transBuffer region buffer
    let tregion := transformRegion W H region
    if W ≤ tregion.left ∨ H ≤ tregion.top ∨
        W < u32add tregion.left tregion.width ∨
        H < u32add tregion.top tregion.height then
      PushResult.mk false pending nextId
    else
      PushResult.mk true
        (pending ++ [Update.mk [nextId] mode immediate tregion trans])
        (nextId + 1)

/-- C4 counterexample: because the size check and the bounds checks
wrap modulo `2^32`, a region of width `2^32 - 1` and height 1 at
left 2 on a 1872 by 1404 panel is accepted (`push_update` returns true
and enqueues it) even though its transformed region, of height
`2^32 - 1`, lies far outside the panel. -/
theorem push_update_wrap_accepts_oob :
    (push_update 1872 1404 [] 0 7 false (UpdateRegion.mk 0 2 4294967295 1)
      (List.replicate 4294967295 0)).ok = true ∧
    1404 < (transformRegion 1872 1404 (UpdateRegion.mk 0 2 4294967295 1)).top +
      (transformRegion 1872 1404 (UpdateRegion.mk 0 2 4294967295 1)).height := by
  constructor
  · unfold push_update
    simp only [List.length_replicate]
    norm_num [u32mul, u32add, u32sub, u32mod, transformRegion]
  · norm_num [transformRegion, u32sub, u32mod]

/-- C4 amended: provided the region dimensions are below `2^31` and the
panel dimensions below `2^16` (so that no `uint32` wraparound can slip
through the checks), `push_update` returns true and appends exactly one
update iff the buffer length is `width * height` and the transformed
region lies within the panel; otherwise it returns false and leaves the
queue and the id counter unchanged. -/
theorem push_update_checks (W H : Nat) (pending : List Update)
    (nextId mode : Nat) (immediate : Bool) (region : UpdateRegion)
    (buffer : List Nat) (hW : W < 65536) (hH : H < 65536)
    (hw : region.width < 2147483648) (hh : region.height < 2147483648) :
    ((push_update W H pending nextId mode immediate region buffer).ok = true ↔
      (buffer.length = region.width * region.height ∧
        (transformRegion W H region).left < W ∧
        (transformRegion W H region).top < H ∧
        (transformRegion W H region).left + (transformRegion W H region).width
          ≤ W ∧
        (transformRegion W H region).top + (transformRegion W H region).height
          ≤ H)) ∧
    ((push_update W H pending nextId mode immediate region buffer).ok = true →
      (push_update W H pending nextId mode immediate region buffer).pending =
        pending ++ [Update.mk [nextId] mode immediate
          (transformRegion W H region) (transBuffer region buffer)] ∧
      (push_update W H pending nextId mode immediate region buffer).nextId =
        nextId + 1) ∧
    ((push_update W H pending nextId mode immediate region buffer).ok = false →
      (push_update W H pending nextId mode immediate region buffer).pending =
        pending ∧
      (push_update W H pending nextId mode immediate region buffer).nextId =
        nextId) := by
  have htl : (transformRegion W H region).left < u32mod := u32sub_lt _ _
  have htt : (transformRegion W H region).top < u32mod := u32sub_lt _ _
  have htrw : (transformRegion W H region).width = region.height := rfl
  have htrh : (transformRegion W H region).height = region.width := rfl
  have hmulsmall : region.width < 65536 → region.height < 65536 →
      u32mul region.width region.height = region.width * region.height := by
    intro h1 h2
    unfold u32mul u32mod
    apply Nat.mod_eq_of_lt
    calc region.width * region.height ≤ 65535 * 65535 :=
          Nat.mul_le_mul (by omega) (by omega)
      _ < 4294967296 := by norm_num
  by_cases hsize : buffer.length = u32mul region.width region.height
  · by_cases hbound : W ≤ (transformRegion W H region).left ∨
        H ≤ (transformRegion W H region).top ∨
        W < u32add (transformRegion W H region).left
          (transformRegion W H region).width ∨
        H < u32add (transformRegion W H region).top
          (transformRegion W H region).height
    · have hres : push_update W H pending nextId mode immediate region buffer =
          PushResult.mk false pending nextId := by
        unfold push_update
        rw [if_neg (by simpa using hsize), if_pos hbound]
      rw [hres]
      refine ⟨⟨by simp, ?_⟩, by simp, fun _ => ⟨rfl, rfl⟩⟩
      rintro ⟨hlen, h1, h2, h3, h4⟩
      have hadd1 : u32add (transformRegion W H region).left
          (transformRegion W H region).width =
          (transformRegion W H region).left +
          (transformRegion W H region).width := by
        unfold u32add u32mod
        apply Nat.mod_eq_of_lt
        rw [htrw]
        omega
      have hadd2 : u32add (transformRegion W H region).top
          (transformRegion W H region).height =
          (transformRegion W H region).top +
          (transformRegion W H region).height := by
        unfold u32add u32mod
        apply Nat.mod_eq_of_lt
        rw [htrh]
        omega
      rw [hadd1, hadd2] at hbound
      exfalso
      rcases hbound with hb | hb | hb | hb <;> omega
    · have hres : push_update W H pending nextId mode immediate region buffer =
          PushResult.mk true (pending ++ [Update.mk [nextId] mode immediate
            (transformRegion W H region) (transBuffer region buffer)])
            (nextId + 1) := by
        unfold push_update
        rw [if_neg (by simpa using hsize), if_neg hbound]
      rw [hres]
      push_neg at hbound
      obtain ⟨hb1, hb2, hb3, hb4⟩ := hbound
      have hadd1 : u32add (transformRegion W H region).left
          (transformRegion W H region).width =
          (transformRegion W H region).left +
          (transformRegion W H region).width := by
        unfold u32add u32mod
        apply Nat.mod_eq_of_lt
        rw [htrw]
        omega
      have hadd2 : u32add (transformRegion W H region).top
          (transformRegion W H region).height =
          (transformRegion W H region).top +
          (transformRegion W H region).height := by
        unfold u32add u32mod
        apply Nat.mod_eq_of_lt
        rw [htrh]
        omega
      rw [hadd1] at hb3
      rw [hadd2] at hb4
      refine ⟨⟨fun _ => ⟨?_, hb1, hb2, hb3, hb4⟩, fun _ => rfl⟩,
        fun _ => ⟨rfl, rfl⟩, by simp⟩
      rw [hsize, hmulsmall (by omega) (by omega)]
  · have hres : push_update W H pending nextId mode immediate region buffer =
        PushResult.mk false pending nextId := by
      unfold push_update
      rw [if_pos (by simpa using hsize)]
    rw [hres]
    refine ⟨⟨by simp, ?_⟩, by simp, fun _ => ⟨rfl, rfl⟩⟩
    rintro ⟨hlen, h1, h2, h3, h4⟩
    exact (hsize (by rw [hlen, hmulsmall (by omega) (by omega)])).elim

theorem push_update_checks_witness :
    (push_update 16 8 [] 0 1 false (UpdateRegion.mk 0 0 2 3)
      (List.replicate 6 0)).ok = true ∧
    (push_update 16 8 [] 0 1 false (UpdateRegion.mk 0 0 2 3)
      (List.replicate 6 0)).pending =
      [Update.mk [0] 1 false (transformRegion 16 8 (UpdateRegion.mk 0 0 2 3))
        (transBuffer (UpdateRegion.mk 0 0 2 3) (List.replicate 6 0))] := by
  have h := push_update_checks 16 8 [] 0 1 false (UpdateRegion.mk 0 0 2 3)
    (List.replicate 6 0) (by decide) (by decide) (by decide) (by decide)
  have hok : (push_update 16 8 [] 0 1 false (UpdateRegion.mk 0 0 2 3)
      (List.replicate 6 0)).ok = true := h.1.mpr (by decide)
  exact ⟨hok, by simpa using (h.2.1 hok).1⟩

/-! ### `Display::merge_updates`

The intensity and step arrays are panel-sized dense arrays; the
embedding represents them as functions from flat offsets
(`offset = y * epd_width + x`) to values.

The immediate-mode safety check in the source (lines 530-559) walks an
x-loop and a y-loop over the peer's region, but the x-loop body never
advances the `cand`/`step`/`next` cursors: every iteration of a row
compares the same `*cand`/`*step` (at the row's current cursor, which
moves by `mid_offset` per row) against `peer.buffer[0]`.  The embedding
reproduces these cursor movements exactly. -/

/-- The inner x-loop of the immediate-merge check: `w` iterations that
all test the same cells (`cand`/`step` at offset `off`, the peer buffer
at index 0), returning true when the reject condition
`*cand != *next && *step > 0` fires. -/
def mergeRejectRow (steps nextI : Nat → Nat) (b0 off : Nat) : Nat → Bool
  | 0 => false
  | w + 1 =>
    if nextI off ≠ b0 ∧ steps off > 0 then true
    else mergeRejectRow steps nextI b0 off w

/-- The y-loop of the immediate-merge check: after each row the
`cand`/`step` cursors advance by `mid_offset` only. -/
def mergeRejectScan (steps nextI : Nat → Nat) (b0 w mid : Nat) :
    Nat → Nat → Bool
  | 0, _ => false
  | h + 1, off =>
    if mergeRejectRow steps nextI b0 off w then true
    else mergeRejectScan steps nextI b0 w mid h (off + mid)

/-- The full immediate-merge reject check of `merge_updates` for one
peer, with the source's initial cursor `start_offset =
peer.top * epd_width + peer.left` and row stride `mid_offset =
epd_width - peer.width`. -/
def mergeReject (W : Nat) (steps nextI : Nat → Nat) (peer : Update) : Bool :=
  mergeRejectScan steps nextI (peer.buffer.getD 0 0) peer.region.width
    (W - peer.region.width) peer.region.height
    (peer.region.top * W + peer.region.left)

/-- `Display::merge_updates` (source lines 512-573): fold compatible
peers from the front of the queue into the in-flight update, stopping
at the first peer with a different mode or immediacy, or (immediate
mode) at the first peer failing the reject check; each merged peer's
buffer is applied to `next_intensity`, the regions are unioned and the
ids concatenated.  Returns the updated in-flight update, the new
`next_intensity` and the remaining queue. -/
def merge_updates (W : Nat) (steps : Nat → Nat) :
    Update → (Nat → Nat) → List Update → Update × (Nat → Nat) × List Update
  | cur, nextI, [] => (cur, nextI, [])
  | cur, nextI, peer :: rest =>
    if cur.immediate ≠ peer.immediate ∨ cur.mode ≠ peer.mode then
      (cur, nextI, peer :: rest)
    else if cur.immediate && mergeReject W steps nextI peer then
      (cur, nextI, peer :: rest)
    else
      merge_updates W steps
        { cur with
          region := cur.region.extend peer.region
          id := cur.id ++ peer.id }
        (peer.apply W nextI) rest

/-- C1 (code bug): the reject check is ineffective because its cursors
never advance along a row and the peer-buffer cursor never advances at
all.  On a 2 by 1 panel with pixel 1 mid-transition
(`waveform_steps 1 = 1`, `next_intensity 1 = 7`), merging a peer whose
buffer keeps pixel 0 (value 5) but changes pixel 1's target to 9 is
accepted: after `merge_updates` the queue is drained and
`next_intensity 1 = 9` even though `waveform_steps 1 > 0`, exactly what
the check (per its own comment, source lines 531-532) must prevent. -/
theorem merge_updates_changes_in_transition_target :
    (fun o => if o = 1 then 1 else 0 : Nat → Nat) 1 > 0 ∧
    (fun o => if o = 0 then 5 else 7 : Nat → Nat) 1 = 7 ∧
    (merge_updates 2 (fun o => if o = 1 then 1 else 0)
      (Update.mk [0] 3 true (UpdateRegion.mk 0 0 1 1) [5])
      (fun o => if o = 0 then 5 else 7)
      [Update.mk [1] 3 true (UpdateRegion.mk 0 0 2 1) [5, 9]]).2.1 1 = 9 ∧
    (merge_updates 2 (fun o => if o = 1 then 1 else 0)
      (Update.mk [0] 3 true (UpdateRegion.mk 0 0 1 1) [5])
      (fun o => if o = 0 then 5 else 7)
      [Update.mk [1] 3 true (UpdateRegion.mk 0 0 2 1) [5, 9]]).2.2 = [] := by
  refine ⟨by decide, by decide, ?_, by decide⟩
  decide

/-! ### `Display::generate_batch` -/

/-- The state effect of `generate_batch` (source lines 591-677) on the
intensity arrays and the queue: `next := current`, apply the update's
buffer, fold in compatible peers, and finally `current := next`; the
frame generation in between reads but does not write these arrays.
Returns (new `current_intensity`, new `next_intensity`, remaining
queue). -/
def generate_batch_state (W : Nat) (steps : Nat → Nat) (u : Update)
    (cur : Nat → Nat) (pending : List Update) :
    (Nat → Nat) × (Nat → Nat) × List Update :=
  let merged := merge_updates W steps u (u.apply W cur) pending
  (merged.2.1, merged.2.1, merged.2.2)

/-- C2: when `generate_batch` runs with an empty pending queue, the
final `current_intensity` equals `next_intensity` everywhere; over the
update's region it equals the update's (row-major) target buffer, and
outside the region it is unchanged. -/
theorem generate_batch_empty_queue (W : Nat) (steps : Nat → Nat)
    (u : Update) (cur : Nat → Nat) :
    (∀ off, (generate_batch_state W steps u cur []).1 off =
      (generate_batch_state W steps u cur []).2.1 off) ∧
    (∀ x y, x < W → u.region.contains x y = true →
      (generate_batch_state W steps u cur []).1 (y * W + x) =
        u.buffer.getD ((y - u.region.top) * u.region.width +
          (x - u.region.left)) 0) ∧
    (∀ x y, x < W → u.region.contains x y = false →
      (generate_batch_state W steps u cur []).1 (y * W + x) =
        cur (y * W + x)) := by
  have hmod : ∀ x y, x < W → (y * W + x) % W = x := by
    intro x y hx
    rw [Nat.mul_comm, Nat.mul_add_mod, Nat.mod_eq_of_lt hx]
  have hdiv : ∀ x y, x < W → (y * W + x) / W = y := by
    intro x y hx
    rw [Nat.mul_comm, Nat.mul_add_div (by omega), Nat.div_eq_of_lt hx,
      Nat.add_zero]
  refine ⟨fun off => rfl, ?_, ?_⟩
  · intro x y hx hc
    show (u.apply W cur) (y * W + x) = _
    unfold Update.apply
    rw [hmod x y hx, hdiv x y hx, if_pos hc]
  · intro x y hx hc
    show (u.apply W cur) (y * W + x) = _
    unfold Update.apply
    rw [hmod x y hx, hdiv x y hx, if_neg (by simp [hc])]

theorem generate_batch_empty_queue_witness :
    (0 : Nat) = 0 ∧
    (generate_batch_state 4 (fun _ => 0)
      (Update.mk [0] 0 false (UpdateRegion.mk 0 1 2 1) [8, 9])
      (fun _ => 3) []).1 (0 * 4 + 1) = 8 ∧
    (generate_batch_state 4 (fun _ => 0)
      (Update.mk [0] 0 false (UpdateRegion.mk 0 1 2 1) [8, 9])
      (fun _ => 3) []).1 (0 * 4 + 3) = 3 ∧
    (generate_batch_state 4 (fun _ => 0)
      (Update.mk [0] 0 false (UpdateRegion.mk 0 1 2 1) [8, 9])
      (fun _ => 3) []).1 7 =
    (generate_batch_state 4 (fun _ => 0)
      (Update.mk [0] 0 false (UpdateRegion.mk 0 1 2 1) [8, 9])
      (fun _ => 3) []).2.1 7 := by
  have h := generate_batch_empty_queue 4 (fun _ => 0)
    (Update.mk [0] 0 false (UpdateRegion.mk 0 1 2 1) [8, 9]) (fun _ => 3)
  refine ⟨rfl, ?_, ?_, h.1 7⟩
  · have := h.2.1 1 0 (by decide) (by decide)
    simpa using this
  · have := h.2.2 3 0 (by decide) (by decide)
    simpa using this

/-! ### Frame packing in `generate_batch` -/

/-- The 2-bit phase codes, with the encoding of the driver:
`Noop = 00b, Black = 01b, White = 10b, Toggle = 11b`. -/
inductive Phase where
  | Noop
  | Black
  | White
  | Toggle
  deriving Repr, DecidableEq

/-- The numeric value of a phase code. -/
def Phase.toNat : Phase → Nat
  | Phase.Noop => 0
  | Phase.Black => 1
  | Phase.White => 2
  | Phase.Toggle => 3

theorem Phase.toNat_le_three (p : Phase) : p.toNat ≤ 3 := by
  cases p <;> simp [Phase.toNat]

/-- A phase matrix, indexed by previous and next intensity. -/
def PhaseMatrix : Type := Nat → Nat → Phase

/-- The innermost 8-pixel loop of `generate_batch` (source lines
646-655): for each of `n` remaining pixels starting at column `x` of
row `y`, shift the 16-bit accumulator left by two
(`phases <<= 2`, i.e. `* 4 mod 2^16`), and when the pixel lies in the
update region, or in the phase `matrix[*prev][*next]` and advance the
`prev`/`next` cursors (absolute flat offset `ptr`).  Returns the packed
word and the final cursor. -/
def packGroup (matrix : PhaseMatrix) (cur nxt : Nat → Nat)
    (rg : UpdateRegion) (y : Nat) : Nat → Nat → Nat → Nat → Nat × Nat
  | 0, _, ptr, acc => (acc, ptr)
  | n + 1, x, ptr, acc =>
    if rg.contains x y then
      packGroup matrix cur nxt rg y n (x + 1) (ptr + 1)
        ((acc * 4 + (matrix (cur ptr) (nxt ptr)).toNat) % 65536)
    else
      packGroup matrix cur nxt rg y n (x + 1) ptr ((acc * 4) % 65536)

/-- One row of the frame loop of `generate_batch` (source lines
639-660): `g` groups of `buf_actual_depth = 8` pixels starting at
column `sx`, each packed into one 16-bit word.  Returns the row's words
and the final `prev`/`next` cursor. -/
def packRow (matrix : PhaseMatrix) (cur nxt : Nat → Nat)
    (rg : UpdateRegion) (y : Nat) : Nat → Nat → Nat → List Nat × Nat
  | 0, _, ptr => ([], ptr)
  | g + 1, sx, ptr =>
    let grp := packGroup matrix cur nxt rg y buf_actual_depth sx ptr 0
    let rest := packRow matrix cur nxt rg y g (sx + buf_actual_depth) grp.2
    (grp.1 :: rest.1, rest.2)

/-- The per-frame double loop of `generate_batch` (source lines
634-668): `rows` rows starting at row `y`, each covering the aligned
region's groups, the `prev`/`next` cursors advancing by
`mid_offset = epd_width - update.region.width` at the end of each row.
Returns the rows of packed words (the frame's phase payload). -/
def packFrame (matrix : PhaseMatrix) (cur nxt : Nat → Nat)
    (rg aligned : UpdateRegion) (W : Nat) :
    Nat → Nat → Nat → List (List Nat) × Nat
  | 0, _, ptr => ([], ptr)
  | rows + 1, y, ptr =>
    let row := packRow matrix cur nxt rg y
      ((aligned.width + buf_actual_depth - 1) / buf_actual_depth)
      aligned.left ptr
    let rest := packFrame matrix cur nxt rg aligned W rows (y + 1)
      (row.2 + (W - rg.width))
    (row.1 :: rest.1, rest.2)

/-- The phase payload of one frame of `generate_batch` for one step's
matrix: rows of the aligned region, starting cursor
`start_offset = update.region.top * epd_width + update.region.left`. -/
def frameOfMatrix (matrix : PhaseMatrix) (cur nxt : Nat → Nat)
    (u : Update) (W : Nat) : List (List Nat) :=
  (packFrame matrix cur nxt u.region (align_region u.region) W
    (align_region u.region).height (align_region u.region).top
    (u.region.top * W + u.region.left)).1

/-- All frames of one `generate_batch` call: one frame per waveform
step, each generated from the same `current`/`next` arrays. -/
def generate_batch_frames (wf : List PhaseMatrix) (cur nxt : Nat → Nat)
    (u : Update) (W : Nat) : List (List (List Nat)) :=
  wf.map fun matrix => frameOfMatrix matrix cur nxt u W

/-- The specified value of one two-bit lane: the phase code of the
transition at pixel `(x, y)` when the pixel is in the update region,
zero otherwise, reading the intensities at the pixel's own flat
offset. -/
def phaseLane (matrix : PhaseMatrix) (cur nxt : Nat → Nat)
    (rg : UpdateRegion) (W y x : Nat) : Nat :=
  if rg.contains x y then
    (matrix (cur (y * W + x)) (nxt (y * W + x))).toNat
  else 0

/-- MSB-first Horner sum of `n` lanes starting at column `x`. -/
def laneSum (matrix : PhaseMatrix) (cur nxt : Nat → Nat)
    (rg : UpdateRegion) (W y : Nat) : Nat → Nat → Nat
  | 0, _ => 0
  | n + 1, x =>
    phaseLane matrix cur nxt rg W y x * 4 ^ n +
      laneSum matrix cur nxt rg W y n (x + 1)

theorem phaseLane_le_three (matrix : PhaseMatrix) (cur nxt : Nat → Nat)
    (rg : UpdateRegion) (W y x : Nat) :
    phaseLane matrix cur nxt rg W y x ≤ 3 := by
  unfold phaseLane
  split
  · exact Phase.toNat_le_three _
  · omega

theorem laneSum_lt (matrix : PhaseMatrix) (cur nxt : Nat → Nat)
    (rg : UpdateRegion) (W y : Nat) :
    ∀ n x, laneSum matrix cur nxt rg W y n x < 4 ^ n := by
  intro n
  induction n with
  | zero => intro x; simp [laneSum]
  | succ n ih =>
    intro x
    have h1 := phaseLane_le_three matrix cur nxt rg W y x
    have h2 := ih (x + 1)
    have h3 : 4 ^ (n + 1) = 4 * 4 ^ n := by ring
    unfold laneSum
    calc phaseLane matrix cur nxt rg W y x * 4 ^ n +
          laneSum matrix cur nxt rg W y n (x + 1)
        ≤ 3 * 4 ^ n + laneSum matrix cur nxt rg W y n (x + 1) :=
          Nat.add_le_add_right (Nat.mul_le_mul_right _ h1) _
      _ < 3 * 4 ^ n + 4 ^ n := Nat.add_lt_add_left h2 _
      _ = 4 ^ (n + 1) := by ring

/-- The Horner lane sum equals the positional MSB-first sum: lane `i`
(0-based from column `x`) is weighted by `4 ^ (n - 1 - i)`. -/
theorem laneSum_eq_sum (matrix : PhaseMatrix) (cur nxt : Nat → Nat)
    (rg : UpdateRegion) (W y : Nat) :
    ∀ n x, laneSum matrix cur nxt rg W y n x =
      Finset.sum (Finset.range n) fun i =>
        phaseLane matrix cur nxt rg W y (x + i) * 4 ^ (n - 1 - i) := by
  intro n
  induction n with
  | zero => intro x; simp [laneSum]
  | succ n ih =>
    intro x
    rw [Finset.sum_range_succ']
    unfold laneSum
    rw [ih (x + 1)]
    simp only [Nat.add_sub_cancel, Nat.sub_zero, Nat.add_zero]
    rw [Nat.add_comm]
    congr 1
    refine Finset.sum_congr rfl fun i _ => ?_
    have h1 : x + 1 + i = x + (i + 1) := by omega
    rw [h1]
    congr 2
    omega

theorem contains_iff (r : UpdateRegion) (x y : Nat) :
    r.contains x y = true ↔
      (r.left ≤ x ∧ x < r.left + r.width ∧ r.top ≤ y ∧
        y < r.top + r.height) := by
  simp [UpdateRegion.contains]

/-- Cursor invariant for the 8-pixel loop: entering column `x` of an
in-range row with the `prev`/`next` cursor at
`y * W + clamp x [left, left + width]`, the packed word is the MSB-first
Horner sum of the lanes and the cursor leaves at
`y * W + clamp (x + n)`. -/
theorem packGroup_correct (matrix : PhaseMatrix) (cur nxt : Nat → Nat)
    (rg : UpdateRegion) (W y : Nat) (hy1 : rg.top ≤ y)
    (hy2 : y < rg.top + rg.height) :
    ∀ n x ptr acc, acc < 65536 →
      ptr = y * W + min (max x rg.left) (rg.left + rg.width) →
      (packGroup matrix cur nxt rg y n x ptr acc).1 =
        (acc * 4 ^ n + laneSum matrix cur nxt rg W y n x) % 65536 ∧
      (packGroup matrix cur nxt rg y n x ptr acc).2 =
        y * W + min (max (x + n) rg.left) (rg.left + rg.width) := by
  intro n
  induction n with
  | zero =>
    intro x ptr acc hacc hptr
    refine ⟨?_, by simpa using hptr⟩
    show acc = _
    rw [laneSum, pow_zero, Nat.mul_one, Nat.add_zero, Nat.mod_eq_of_lt hacc]
  | succ n ih =>
    intro x ptr acc hacc hptr
    by_cases hc : rg.contains x y = true
    · obtain ⟨hx1, hx2, _, _⟩ := (contains_iff rg x y).mp hc
      have hptr' : ptr = y * W + x := by
        rw [hptr]
        congr 1
        omega
      have hnew : ptr + 1 =
          y * W + min (max (x + 1) rg.left) (rg.left + rg.width) := by
        rw [hptr']
        omega
      simp only [packGroup, if_pos hc]
      obtain ⟨ih1, ih2⟩ := ih (x + 1) (ptr + 1)
        ((acc * 4 + (matrix (cur ptr) (nxt ptr)).toNat) % 65536)
        (Nat.mod_lt _ (by norm_num)) hnew
      refine ⟨?_, by rw [ih2]; congr 1; omega⟩
      rw [ih1, Nat.add_mod, Nat.mod_mul_mod, ← Nat.add_mod]
      congr 1
      simp only [laneSum]
      rw [phaseLane, if_pos hc, hptr']
      ring
    · have hx : x < rg.left ∨ rg.left + rg.width ≤ x := by
        by_contra hcon
        push_neg at hcon
        exact hc ((contains_iff rg x y).mpr
          ⟨by omega, by omega, hy1, hy2⟩)
      have hsame : min (max (x + 1) rg.left) (rg.left + rg.width) =
          min (max x rg.left) (rg.left + rg.width) := by
        rcases hx with hx | hx <;> omega
      simp only [packGroup, if_neg hc]
      obtain ⟨ih1, ih2⟩ := ih (x + 1) ptr ((acc * 4) % 65536)
        (Nat.mod_lt _ (by norm_num)) (by rw [hptr, hsame])
      refine ⟨?_, by rw [ih2]; congr 1; omega⟩
      rw [ih1, Nat.add_mod, Nat.mod_mul_mod, ← Nat.add_mod]
      congr 1
      simp only [laneSum]
      rw [phaseLane, if_neg (by simp [hc])]
      ring

/-- Row invariant: the `j`-th packed word of a row starting at column
`sx` is the lane sum of the 8 pixels starting at `sx + 8 j`, and the
cursor leaves the row clamped to the region's right edge. -/
theorem packRow_correct (matrix : PhaseMatrix) (cur nxt : Nat → Nat)
    (rg : UpdateRegion) (W y : Nat) (hy1 : rg.top ≤ y)
    (hy2 : y < rg.top + rg.height) :
    ∀ g sx ptr, ptr = y * W + min (max sx rg.left) (rg.left + rg.width) →
      (packRow matrix cur nxt rg y g sx ptr).2 =
        y * W + min (max (sx + 8 * g) rg.left) (rg.left + rg.width) ∧
      ∀ j, (packRow matrix cur nxt rg y g sx ptr).1.get? j =
        if j < g then some (laneSum matrix cur nxt rg W y 8 (sx + 8 * j))
        else none := by
  intro g
  induction g with
  | zero =>
    intro sx ptr hptr
    refine ⟨by simpa using hptr, fun j => by simp [packRow]⟩
  | succ g ih =>
    intro sx ptr hptr
    obtain ⟨hg1, hg2⟩ := packGroup_correct matrix cur nxt rg W y hy1 hy2 8 sx
      ptr 0 (by norm_num) hptr
    have hword : (packGroup matrix cur nxt rg y 8 sx ptr 0).1 =
        laneSum matrix cur nxt rg W y 8 sx := by
      rw [hg1, Nat.zero_mul, Nat.zero_add, Nat.mod_eq_of_lt]
      exact lt_of_lt_of_le (laneSum_lt matrix cur nxt rg W y 8 sx)
        (by norm_num)
    obtain ⟨ih1, ih2⟩ := ih (sx + 8) (packGroup matrix cur nxt rg y 8 sx ptr 0).2
      (by rw [hg2])
    constructor
    · show (packRow matrix cur nxt rg y g (sx + 8) _).2 = _
      rw [show packRow matrix cur nxt rg y g (sx + 8)
          (packGroup matrix cur nxt rg y buf_actual_depth sx ptr 0).2 =
          packRow matrix cur nxt rg y g (sx + 8)
          (packGroup matrix cur nxt rg y 8 sx ptr 0).2 from rfl, ih1]
      congr 1
      omega
    · intro j
      show ((packGroup matrix cur nxt rg y buf_actual_depth sx ptr 0).1 ::
        (packRow matrix cur nxt rg y g (sx + 8) _).1).get? j = _
      match j with
      | 0 =>
        simp only [List.get?_cons_zero, Nat.zero_lt_succ, if_pos]
        rw [show (packGroup matrix cur nxt rg y buf_actual_depth sx ptr 0).1 =
          (packGroup matrix cur nxt rg y 8 sx ptr 0).1 from rfl, hword]
        simp
      | j + 1 =>
        simp only [List.get?_cons_succ]
        rw [show (packGroup matrix cur nxt rg y buf_actual_depth sx ptr 0).2 =
          (packGroup matrix cur nxt rg y 8 sx ptr 0).2 from rfl, ih2 j]
        by_cases hj : j < g
        · rw [if_pos hj, if_pos (by omega)]
          congr 2
          omega
        · rw [if_neg hj, if_neg (by omega)]

/-- Frame invariant: row `r` of the packed frame is the row walk of
region row `y + r`, with the cursor entering each row at
`(y + r) * W + region.left`. -/
theorem packFrame_correct (matrix : PhaseMatrix) (cur nxt : Nat → Nat)
    (rg : UpdateRegion) (W : Nat) (hW : rg.left + rg.width ≤ W) :
    ∀ rows y ptr, rg.top ≤ y → y + rows ≤ rg.top + rg.height →
      ptr = y * W + rg.left →
      ∀ r, (packFrame matrix cur nxt rg (align_region rg) W rows y
          ptr).1.get? r =
        if r < rows then
          some ((packRow matrix cur nxt rg (y + r)
            (((align_region rg).width + 7) / 8) (align_region rg).left
            ((y + r) * W + rg.left)).1)
        else none := by
  have hle := align_region_left_le rg
  have hge := align_region_right_le rg
  intro rows
  induction rows with
  | zero =>
    intro y ptr hy1 hy2 hptr r
    simp [packFrame]
  | succ rows ih =>
    intro y ptr hy1 hy2 hptr r
    have hclamp : ptr =
        y * W + min (max (align_region rg).left rg.left)
          (rg.left + rg.width) := by
      rw [hptr]
      congr 1
      omega
    obtain ⟨hrow2, _⟩ := packRow_correct matrix cur nxt rg W y hy1 (by omega)
      (((align_region rg).width + 7) / 8) (align_region rg).left ptr hclamp
    have hcover : (align_region rg).left +
        8 * (((align_region rg).width + 7) / 8) ≥ rg.left + rg.width := by
      have hdm := Nat.div_add_mod ((align_region rg).width + 7) 8
      have hlt : ((align_region rg).width + 7) % 8 < 8 :=
        Nat.mod_lt _ (by norm_num)
      omega
    have hend : (packRow matrix cur nxt rg y
        (((align_region rg).width + 7) / 8) (align_region rg).left ptr).2 +
        (W - rg.width) = (y + 1) * W + rg.left := by
      rw [hrow2]
      have : min (max ((align_region rg).left +
          8 * (((align_region rg).width + 7) / 8)) rg.left)
          (rg.left + rg.width) = rg.left + rg.width := by
        omega
      rw [this]
      have hyW : (y + 1) * W = y * W + W := by ring
      omega
    show ((packRow matrix cur nxt rg y
        ((((align_region rg)).width + buf_actual_depth - 1) /
          buf_actual_depth) (align_region rg).left ptr).1 ::
      (packFrame matrix cur nxt rg (align_region rg) W rows (y + 1) _).1).get?
        r = _
    match r with
    | 0 =>
      simp only [List.get?_cons_zero, Nat.zero_lt_succ, if_pos, Nat.add_zero]
      rw [hptr]
      rfl
    | r + 1 =>
      simp only [List.get?_cons_succ]
      rw [show ((((align_region rg)).width + buf_actual_depth - 1) /
          buf_actual_depth) = (((align_region rg).width + 7) / 8) from rfl,
        hend]
      rw [ih (y + 1) ((y + 1) * W + rg.left) (by omega) (by omega) rfl r]
      by_cases hr : r < rows
      · rw [if_pos hr, if_pos (by omega)]
        have : y + 1 + r = y + (r + 1) := by omega
        rw [this]
      · rw [if_neg hr, if_neg (by omega)]

/-- C3: in every frame `k` produced by `generate_batch`, the 16-bit
word stored for the 8-pixel group starting at column
`aligned.left + 8 g` of row `aligned.top + r` is packed MSB-first
(pixel `sx` in the most significant bit pair, pixel `sx + 7` in the
least), each two-bit lane being `waveform[k][current[p]][next[p]]`
encoded as `Noop = 0, Black = 1, White = 2, Toggle = 3` when the update
region contains `p`, and zero when `p` lies in the aligned region but
outside the update region. -/
theorem generate_batch_word (wf : List PhaseMatrix) (cur nxt : Nat → Nat)
    (u : Update) (W k r g : Nat) (hW : u.region.left + u.region.width ≤ W)
    (hk : k < wf.length) (hr : r < (align_region u.region).height)
    (hg : g < ((align_region u.region).width + 7) / 8) :
    (generate_batch_frames wf cur nxt u W).get? k =
      some (frameOfMatrix (wf.getD k (fun _ _ => Phase.Noop)) cur nxt u W) ∧
    ((frameOfMatrix (wf.getD k (fun _ _ => Phase.Noop)) cur nxt u
        W).getD r []).getD g 0 =
      Finset.sum (Finset.range 8) fun i =>
        (if u.region.contains ((align_region u.region).left + 8 * g + i)
            ((align_region u.region).top + r) = true then
          (wf.getD k (fun _ _ => Phase.Noop)
            (cur (((align_region u.region).top + r) * W +
              ((align_region u.region).left + 8 * g + i)))
            (nxt (((align_region u.region).top + r) * W +
              ((align_region u.region).left + 8 * g + i)))).toNat
        else 0) * 4 ^ (7 - i) := by
  have htop := align_region_top u.region
  have hhei := align_region_height u.region
  have hle := align_region_left_le u.region
  constructor
  · unfold generate_batch_frames
    rw [List.get?_map, List.get?_eq_get hk,
      List.getD_eq_get wf (fun _ _ => Phase.Noop) hk]
    rfl
  · unfold frameOfMatrix
    have hframe := packFrame_correct (wf.getD k (fun _ _ => Phase.Noop)) cur
      nxt u.region W hW (align_region u.region).height
      (align_region u.region).top (u.region.top * W + u.region.left)
      (by rw [htop]) (by rw [htop, hhei]) (by rw [htop]) r
    rw [if_pos hr] at hframe
    have hclamp : ((align_region u.region).top + r) * W + u.region.left =
        ((align_region u.region).top + r) * W +
          min (max (align_region u.region).left u.region.left)
            (u.region.left + u.region.width) := by
      congr 1
      omega
    have hrow := (packRow_correct (wf.getD k (fun _ _ => Phase.Noop)) cur nxt
      u.region W ((align_region u.region).top + r) (by rw [htop]; omega)
      (by rw [htop]; rw [hhei] at hr; omega)
      (((align_region u.region).width + 7) / 8) (align_region u.region).left
      (((align_region u.region).top + r) * W + u.region.left) hclamp).2 g
    rw [if_pos hg] at hrow
    rw [List.getD_eq_getD_get?, List.getD_eq_getD_get?, hframe,
      Option.getD_some, hrow, Option.getD_some, laneSum_eq_sum]
    refine Finset.sum_congr rfl fun i hi => ?_
    rw [phaseLane]

theorem generate_batch_word_witness :
    (generate_batch_frames [fun _ _ => Phase.Toggle] (fun _ => 0)
      (fun _ => 1)
      (Update.mk [0] 0 false (UpdateRegion.mk 0 2 6 1) [1, 1, 1, 1, 1, 1])
      16).get? 0 =
      some (frameOfMatrix (fun _ _ => Phase.Toggle) (fun _ => 0) (fun _ => 1)
        (Update.mk [0] 0 false (UpdateRegion.mk 0 2 6 1) [1, 1, 1, 1, 1, 1])
        16) ∧
    ((frameOfMatrix (fun _ _ => Phase.Toggle) (fun _ => 0) (fun _ => 1)
        (Update.mk [0] 0 false (UpdateRegion.mk 0 2 6 1) [1, 1, 1, 1, 1, 1])
        16).getD 0 []).getD 0 0 =
      Finset.sum (Finset.range 8) fun i =>
        (if (UpdateRegion.mk 0 2 6 1).contains (0 + 8 * 0 + i) (0 + 0) = true
          then Phase.Toggle.toNat else 0) * 4 ^ (7 - i) :=
  generate_batch_word [fun _ _ => Phase.Toggle] (fun _ => 0) (fun _ => 1)
    (Update.mk [0] 0 false (UpdateRegion.mk 0 2 6 1) [1, 1, 1, 1, 1, 1])
    16 0 0 0 (by decide) (by decide) (by decide) (by decide)

/-! ### `Display::generate_immediate`

The per-pixel walk of immediate mode is the same cursor walk as in
`generate_batch`, but it also advances the per-pixel `waveform_steps`
counter and commits finished pixels.  `waveform[*step]` with `*step`
out of range is undefined behaviour in the source; the embedding
totalises it with a Noop matrix (`List.getD`), which does not affect
the claims below (the commit test compares the incremented counter with
`waveform.size()` exactly as the source does). -/

/-- State threaded through one pass of the immediate-mode loop: the
`waveform_steps` and `current_intensity` arrays, the `finished` flag
and the `active_region` accumulator. -/
structure ImmState where
  steps : Nat → Nat
  cur : Nat → Nat
  finished : Bool
  active : UpdateRegion

/-- One pixel of the immediate-mode walk (source lines 736-762):
`phases <<= 2` always; when the pixel is in the region, a transitioning
pixel (`*prev != *next`) clears `finished`, emits
`waveform[*step][*prev][*next]`, extends the active region and advances
its step, committing (`*step = 0; *prev = *next`) when the step count
is reached; the cursors advance on every contained pixel.  Returns the
new state, cursor and accumulator. -/
def immPixel (wf : List PhaseMatrix) (nxt : Nat → Nat) (rg : UpdateRegion)
    (y x : Nat) (s : ImmState) (ptr acc : Nat) : ImmState × Nat × Nat :=
  if rg.contains x y then
    if s.cur ptr ≠ nxt ptr then
      let step := s.steps ptr
      let phase := (wf.getD step fun _ _ => Phase.Noop) (s.cur ptr) (nxt ptr)
      let committed := step + 1 = wf.length
      (ImmState.mk
        (fun o => if o = ptr then (if committed then 0 else step + 1)
          else s.steps o)
        (fun o => if o = ptr then (if committed then nxt ptr else s.cur o)
          else s.cur o)
        false
        (s.active.extendPoint x y),
        ptr + 1, (acc * 4 + phase.toNat) % 65536)
    else
      (s, ptr + 1, (acc * 4) % 65536)
  else
    (s, ptr, (acc * 4) % 65536)

/-- The 8-pixel group of the immediate-mode walk. -/
def immGroup (wf : List PhaseMatrix) (nxt : Nat → Nat) (rg : UpdateRegion)
    (y : Nat) : Nat → Nat → ImmState → Nat → Nat → ImmState × Nat × Nat
  | 0, _, s, ptr, acc => (s, ptr, acc)
  | n + 1, x, s, ptr, acc =>
    let px := immPixel wf nxt rg y x s ptr acc
    immGroup wf nxt rg y n (x + 1) px.1 px.2.1 px.2.2

/-- One row of the immediate-mode walk: `g` groups of 8 pixels, each
packed into one word (collected for the emitted frame). -/
def immRow (wf : List PhaseMatrix) (nxt : Nat → Nat) (rg : UpdateRegion)
    (y : Nat) : Nat → Nat → ImmState → Nat → (ImmState × Nat) × List Nat
  | 0, _, s, ptr => ((s, ptr), [])
  | g + 1, sx, s, ptr =>
    let grp := immGroup wf nxt rg y buf_actual_depth sx s ptr 0
    let rest := immRow wf nxt rg y g (sx + buf_actual_depth) grp.1 grp.2.1
    ((rest.1.1, rest.1.2), grp.2.2 :: rest.2)

/-- The full double loop of one immediate-mode pass over the aligned
region, the cursor advancing by `mid_offset = W - region.width` at the
end of each row.  Returns the final state. -/
def immFrame (wf : List PhaseMatrix) (nxt : Nat → Nat)
    (rg aligned : UpdateRegion) (W : Nat) :
    Nat → Nat → ImmState → Nat → ImmState
  | 0, _, s, _ => s
  | rows + 1, y, s, ptr =>
    let row := immRow wf nxt rg y
      ((aligned.width + buf_actual_depth - 1) / buf_actual_depth)
      aligned.left s ptr
    immFrame wf nxt rg aligned W rows (y + 1) row.1.1
      (row.1.2 + (W - rg.width))

/-- One iteration body of the `while (!finished)` loop of
`generate_immediate` (source lines 693-784), after the merge step:
reset `finished := true` and `active_region` to the empty region, then
walk the aligned region. -/
def immPass (wf : List PhaseMatrix) (nxt : Nat → Nat) (W : Nat)
    (rg : UpdateRegion) (steps cur : Nat → Nat) : ImmState :=
  immFrame wf nxt rg (align_region rg) W (align_region rg).height
    (align_region rg).top
    (ImmState.mk steps cur true (UpdateRegion.mk 0 0 0 0))
    (rg.top * W + rg.left)

/-- Result of a terminating `generate_immediate`: the final arrays, the
number of frames handed to vsync, and the remaining queue. -/
structure ImmResult where
  steps : Nat → Nat
  cur : Nat → Nat
  frames : Nat
  pending : List Update

/-- The `while (!finished)` loop of `generate_immediate`, with an
explicit fuel bound on the number of iterations: each iteration first
folds in compatible peers (`merge_updates`), then performs one pass; if
no pixel transitioned the loop ends without emitting the frame,
otherwise the frame is sent and the update's region shrinks to the
active region.  `none` means the fuel was exhausted before the loop
finished. -/
def generate_immediate_loop (wf : List PhaseMatrix) (W : Nat) :
    Nat → Update → (Nat → Nat) → (Nat → Nat) → (Nat → Nat) → List Update →
    Nat → Option ImmResult
  | 0, _, _, _, _, _, _ => none
  | fuel + 1, u, steps, cur, nxt, pending, frames =>
    let m := merge_updates W steps u nxt pending
    let s := immPass wf m.2.1 W m.1.region steps cur
    if s.finished then
      some (ImmResult.mk s.steps s.cur frames m.2.2)
    else
      generate_immediate_loop wf W fuel
        { m.1 with region := s.active } s.steps s.cur m.2.1 m.2.2
        (frames + 1)

/-- `Display::generate_immediate` (source lines 679-785): reset all
step counters, set `next := current` overlaid with the update's buffer,
and run the pass loop. -/
def generate_immediate (wf : List PhaseMatrix) (W : Nat) (u : Update)
    (cur : Nat → Nat) (pending : List Update) (fuel : Nat) :
    Option ImmResult :=
  generate_immediate_loop wf W fuel u (fun _ => 0) cur (u.apply W cur)
    pending 0

/-- C5 counterexample: with the (finite) empty waveform and a pixel
whose target differs from its current value, `generate_immediate` never
finishes: each pass increments the step counter past the (zero) step
count without ever committing, so the loop does not terminate within
`waveform.size()` passes — here it is still running after 5 passes
although the claim allows 0. -/
theorem generate_immediate_empty_waveform_stalls :
    generate_immediate [] 8
      (Update.mk [0] 0 true (UpdateRegion.mk 0 0 8 1)
        [1, 1, 1, 1, 1, 1, 1, 1])
      (fun _ => 0) [] 5 = none := rfl

/-- Bounding-box invariant of the active region relative to the
region being walked: the accumulator is either still the empty region
or a non-degenerate rectangle inside the walked region. -/
def activeInv (rg a : UpdateRegion) : Prop :=
  a = UpdateRegion.mk 0 0 0 0 ∨
    (rg.left ≤ a.left ∧ a.left + a.width ≤ rg.left + rg.width ∧
      rg.top ≤ a.top ∧ a.top + a.height ≤ rg.top + rg.height ∧
      0 < a.width ∧ 0 < a.height)

theorem extendPoint_contains_self (a : UpdateRegion) (x y : Nat) :
    (a.extendPoint x y).contains x y = true := by
  unfold UpdateRegion.extendPoint UpdateRegion.extend
  simp only [UpdateRegion.contains, decide_eq_true_eq]
  split
  · rename_i hother
    omega
  · split
    · dsimp only
      omega
    · dsimp only
      omega

theorem extendPoint_mono (a : UpdateRegion) (x y p q : Nat)
    (h : a.contains p q = true) :
    (a.extendPoint x y).contains p q = true := by
  unfold UpdateRegion.extendPoint UpdateRegion.extend
  simp only [UpdateRegion.contains, decide_eq_true_eq] at h ⊢
  split
  · exact h
  · split
    · rename_i hempty
      dsimp only
      omega
    · dsimp only
      omega

theorem extendPoint_activeInv (rg a : UpdateRegion) (x y : Nat)
    (hxy : rg.contains x y = true) (h : activeInv rg a) :
    activeInv rg (a.extendPoint x y) := by
  rw [contains_iff] at hxy
  unfold activeInv at h ⊢
  unfold UpdateRegion.extendPoint UpdateRegion.extend
  right
  split
  · rename_i hother
    dsimp only at hother
    omega
  · split
    · dsimp only
      omega
    · rename_i hne
      dsimp only
      rcases h with h | h
      · rw [h] at hne
        dsimp only at hne
        omega
      · omega

theorem activeInv_contains (rg a : UpdateRegion) (h : activeInv rg a)
    (x y : Nat) (hc : a.contains x y = true) : rg.contains x y = true := by
  rw [contains_iff] at hc ⊢
  rcases h with h | h
  · rw [h] at hc
    dsimp only at hc
    omega
  · omega

/-- The step counter of one pixel after one pass: a transitioning
pixel advances (wrapping to 0 on commit), a settled pixel is
untouched. -/
def pixelStepsAfter (N st c nv : Nat) : Nat :=
  if c ≠ nv then (if st + 1 = N then 0 else st + 1) else st

/-- The current intensity of one pixel after one pass: committed on the
last step, otherwise unchanged. -/
def pixelCurAfter (N st c nv : Nat) : Nat :=
  if c ≠ nv then (if st + 1 = N then nv else c) else c

/-- Full characterisation of the 8-pixel immediate walk: the cursor
moves clamped to the region, contained pixels of the window follow the
per-pixel formulas, all other offsets are untouched, `finished`
survives iff no contained window pixel transitions, and the active
region grows by exactly the transitioning pixels, inside the walked
region. -/
theorem immGroup_spec (wf : List PhaseMatrix) (nxt : Nat → Nat)
    (rg : UpdateRegion) (W y : Nat) (hy1 : rg.top ≤ y)
    (hy2 : y < rg.top + rg.height) :
    ∀ n x s ptr acc,
      ptr = y * W + min (max x rg.left) (rg.left + rg.width) →
      (immGroup wf nxt rg y n x s ptr acc).2.1 =
        y * W + min (max (x + n) rg.left) (rg.left + rg.width) ∧
      (∀ x', x ≤ x' → x' < x + n → rg.contains x' y = true →
        (immGroup wf nxt rg y n x s ptr acc).1.steps (y * W + x') =
          pixelStepsAfter wf.length (s.steps (y * W + x'))
            (s.cur (y * W + x')) (nxt (y * W + x')) ∧
        (immGroup wf nxt rg y n x s ptr acc).1.cur (y * W + x') =
          pixelCurAfter wf.length (s.steps (y * W + x'))
            (s.cur (y * W + x')) (nxt (y * W + x'))) ∧
      (∀ o, (∀ x', x ≤ x' → x' < x + n → rg.contains x' y = true →
          o ≠ y * W + x') →
        (immGroup wf nxt rg y n x s ptr acc).1.steps o = s.steps o ∧
        (immGroup wf nxt rg y n x s ptr acc).1.cur o = s.cur o) ∧
      ((immGroup wf nxt rg y n x s ptr acc).1.finished = true ↔
        (s.finished = true ∧ ∀ x', x ≤ x' → x' < x + n →
          rg.contains x' y = true →
          s.cur (y * W + x') = nxt (y * W + x'))) ∧
      (∀ p q, s.active.contains p q = true →
        (immGroup wf nxt rg y n x s ptr acc).1.active.contains p q = true) ∧
      (∀ x', x ≤ x' → x' < x + n → rg.contains x' y = true →
        s.cur (y * W + x') ≠ nxt (y * W + x') →
        (immGroup wf nxt rg y n x s ptr acc).1.active.contains x' y = true) ∧
      (activeInv rg s.active →
        activeInv rg (immGroup wf nxt rg y n x s ptr acc).1.active) := by
  intro n
  induction n with
  | zero =>
    intro x s ptr acc hptr
    refine ⟨by simpa using hptr, by omega, fun o _ => ⟨rfl, rfl⟩,
      ⟨fun h => ⟨h, by omega⟩, fun h => h.1⟩, fun p q h => h, by omega,
      fun h => h⟩
  | succ n ih =>
    intro x s ptr acc hptr
    by_cases hc : rg.contains x y = true
    · obtain ⟨hx1, hx2, _, _⟩ := (contains_iff rg x y).mp hc
      have hptr' : ptr = y * W + x := by
        rw [hptr]
        congr 1
        omega
      have honew : ∀ x', x + 1 ≤ x' → y * W + x ≠ y * W + x' := by
        intro x' hlt
        omega
      by_cases hne : s.cur ptr ≠ nxt ptr
      · have hpx : immPixel wf nxt rg y x s ptr acc =
            (ImmState.mk
              (fun o => if o = ptr then
                (if s.steps ptr + 1 = wf.length then 0 else s.steps ptr + 1)
                else s.steps o)
              (fun o => if o = ptr then
                (if s.steps ptr + 1 = wf.length then nxt ptr else s.cur o)
                else s.cur o)
              false (s.active.extendPoint x y),
              ptr + 1,
              (acc * 4 + ((wf.getD (s.steps ptr) fun _ _ => Phase.Noop)
                (s.cur ptr) (nxt ptr)).toNat) % 65536) := by
          simp only [immPixel, if_pos hc, if_pos hne]
        have hstep : immGroup wf nxt rg y (n + 1) x s ptr acc =
            immGroup wf nxt rg y n (x + 1)
              (immPixel wf nxt rg y x s ptr acc).1
              (immPixel wf nxt rg y x s ptr acc).2.1
              (immPixel wf nxt rg y x s ptr acc).2.2 := by
          simp only [immGroup]
        rw [hstep, hpx]
        have hptrnew : ptr + 1 =
            y * W + min (max (x + 1) rg.left) (rg.left + rg.width) := by
          rw [hptr']
          omega
        obtain ⟨ih0, ihA, ihB, ihC, ihD1, ihD2, ihD3⟩ := ih (x + 1)
          (ImmState.mk
            (fun o => if o = ptr then
              (if s.steps ptr + 1 = wf.length then 0 else s.steps ptr + 1)
              else s.steps o)
            (fun o => if o = ptr then
              (if s.steps ptr + 1 = wf.length then nxt ptr else s.cur o)
              else s.cur o)
            false (s.active.extendPoint x y))
          (ptr + 1)
          ((acc * 4 + ((wf.getD (s.steps ptr) fun _ _ => Phase.Noop)
            (s.cur ptr) (nxt ptr)).toNat) % 65536) hptrnew
        refine ⟨by rw [ih0]; congr 1; omega, ?_, ?_, ?_, ?_, ?_, ?_⟩
        · intro x' h1 h2 h3
          by_cases hxx : x' = x
          · subst hxx
            obtain ⟨hs, hcr⟩ := ihB (y * W + x') fun x'' h1' h2' h3' =>
              honew x'' h1'
            rw [hs, hcr]
            rw [← hptr']
            simp only [if_pos rfl]
            rw [pixelStepsAfter, pixelCurAfter, if_pos hne, if_pos hne]
            exact ⟨by trivial, by trivial⟩
          · have h1' : x + 1 ≤ x' := by omega
            obtain ⟨hs, hcr⟩ := ihA x' h1' (by omega) h3
            rw [hs, hcr]
            have hoo : y * W + x' ≠ ptr := by
              rw [hptr']
              omega
            simp only [if_neg hoo]
            exact ⟨by trivial, by trivial⟩
        · intro o hcond
          have hoptr : o ≠ ptr := by
            rw [hptr']
            exact hcond x (by omega) (by omega) hc
          obtain ⟨hs, hcr⟩ := ihB o fun x'' h1' h2' h3' =>
            hcond x'' (by omega) (by omega) h3'
          rw [hs, hcr]
          simp only [if_neg hoptr]
          exact ⟨by trivial, by trivial⟩
        · constructor
          · intro hG
            obtain ⟨hfin, _⟩ := ihC.mp hG
            simp at hfin
          · rintro ⟨_, hall⟩
            have := hall x (by omega) (by omega) hc
            rw [← hptr'] at this
            exact absurd this hne
        · intro p q h
          exact ihD1 p q (extendPoint_mono _ x y p q h)
        · intro x' h1 h2 h3 h4
          by_cases hxx : x' = x
          · subst hxx
            exact ihD1 x' y (extendPoint_contains_self _ x' y)
          · have h1' : x + 1 ≤ x' := by omega
            refine ihD2 x' h1' (by omega) h3 ?_
            have hoo : y * W + x' ≠ ptr := by
              rw [hptr']
              omega
            simpa only [if_neg hoo] using h4
        · intro hinv
          exact ihD3 (extendPoint_activeInv rg s.active x y hc hinv)
      · have heq : s.cur ptr = nxt ptr := by
          by_contra hcon
          exact hne hcon
        have hpx : immPixel wf nxt rg y x s ptr acc =
            (s, ptr + 1, (acc * 4) % 65536) := by
          simp only [immPixel, if_pos hc, if_neg hne]
        have hstep : immGroup wf nxt rg y (n + 1) x s ptr acc =
            immGroup wf nxt rg y n (x + 1)
              (immPixel wf nxt rg y x s ptr acc).1
              (immPixel wf nxt rg y x s ptr acc).2.1
              (immPixel wf nxt rg y x s ptr acc).2.2 := by
          simp only [immGroup]
        rw [hstep, hpx]
        have hptrnew : ptr + 1 =
            y * W + min (max (x + 1) rg.left) (rg.left + rg.width) := by
          rw [hptr']
          omega
        obtain ⟨ih0, ihA, ihB, ihC, ihD1, ihD2, ihD3⟩ := ih (x + 1) s
          (ptr + 1) ((acc * 4) % 65536) hptrnew
        refine ⟨by rw [ih0]; congr 1; omega, ?_, ?_, ?_, ihD1, ?_, ihD3⟩
        · intro x' h1 h2 h3
          by_cases hxx : x' = x
          · subst hxx
            obtain ⟨hs, hcr⟩ := ihB (y * W + x') fun x'' h1' h2' h3' =>
              honew x'' h1'
            rw [hs, hcr, ← hptr']
            rw [pixelStepsAfter, pixelCurAfter, if_neg (by simpa using heq),
              if_neg (by simpa using heq)]
            exact ⟨by trivial, by trivial⟩
          · exact ihA x' (by omega) (by omega) h3
        · intro o hcond
          exact ihB o fun x'' h1' h2' h3' =>
            hcond x'' (by omega) (by omega) h3'
        · rw [ihC]
          constructor
          · rintro ⟨hfin, hall⟩
            refine ⟨hfin, fun x' h1 h2 h3 => ?_⟩
            by_cases hxx : x' = x
            · subst hxx
              rw [← hptr']
              exact heq
            · exact hall x' (by omega) (by omega) h3
          · rintro ⟨hfin, hall⟩
            exact ⟨hfin, fun x' h1 h2 h3 =>
              hall x' (by omega) (by omega) h3⟩
        · intro x' h1 h2 h3 h4
          by_cases hxx : x' = x
          · subst hxx
            rw [← hptr'] at h4
            exact absurd heq h4
          · exact ihD2 x' (by omega) (by omega) h3 h4
    · have hcf : rg.contains x y = false := by
        simpa using hc
      have hx : x < rg.left ∨ rg.left + rg.width ≤ x := by
        by_contra hcon
        push_neg at hcon
        exact hc ((contains_iff rg x y).mpr ⟨by omega, by omega, hy1, hy2⟩)
      have hpx : immPixel wf nxt rg y x s ptr acc =
          (s, ptr, (acc * 4) % 65536) := by
        simp only [immPixel, if_neg hc]
      have hstep : immGroup wf nxt rg y (n + 1) x s ptr acc =
          immGroup wf nxt rg y n (x + 1)
            (immPixel wf nxt rg y x s ptr acc).1
            (immPixel wf nxt rg y x s ptr acc).2.1
            (immPixel wf nxt rg y x s ptr acc).2.2 := by
        simp only [immGroup]
      rw [hstep, hpx]
      have hptrnew : ptr =
          y * W + min (max (x + 1) rg.left) (rg.left + rg.width) := by
        rw [hptr]
        congr 1
        rcases hx with hx | hx <;> omega
      obtain ⟨ih0, ihA, ihB, ihC, ihD1, ihD2, ihD3⟩ := ih (x + 1) s ptr
        ((acc * 4) % 65536) hptrnew
      refine ⟨by rw [ih0]; congr 1; omega, ?_, ?_, ?_, ihD1, ?_, ihD3⟩
      · intro x' h1 h2 h3
        by_cases hxx : x' = x
        · subst hxx
          rw [h3] at hcf
          simp at hcf
        · exact ihA x' (by omega) (by omega) h3
      · intro o hcond
        exact ihB o fun x'' h1' h2' h3' =>
          hcond x'' (by omega) (by omega) h3'
      · rw [ihC]
        constructor
        · rintro ⟨hfin, hall⟩
          refine ⟨hfin, fun x' h1 h2 h3 => ?_⟩
          by_cases hxx : x' = x
          · subst hxx
            rw [h3] at hcf
            simp at hcf
          · exact hall x' (by omega) (by omega) h3
        · rintro ⟨hfin, hall⟩
          exact ⟨hfin, fun x' h1 h2 h3 =>
            hall x' (by omega) (by omega) h3⟩
      · intro x' h1 h2 h3 h4
        by_cases hxx : x' = x
        · subst hxx
          rw [h3] at hcf
          simp at hcf
        · exact ihD2 x' (by omega) (by omega) h3 h4

/-- Offsets of pixels in different rows differ, provided the column of
the earlier row is within the stride. -/
theorem offset_lt_of_row_lt (W x1 y1 y2 x2 : Nat) (hx : x1 < W)
    (hy : y1 < y2) : y1 * W + x1 < y2 * W + x2 := by
  have h1 : (y1 + 1) * W ≤ y2 * W := Nat.mul_le_mul_right W hy
  calc y1 * W + x1 < y1 * W + W := by omega
    _ = (y1 + 1) * W := by ring
    _ ≤ y2 * W := h1
    _ ≤ y2 * W + x2 := Nat.le_add_right _ _

/-- Row-level characterisation of the immediate walk, composing
`immGroup_spec` over the row's groups: window `[sx, sx + 8 g)`. -/
theorem immRow_spec (wf : List PhaseMatrix) (nxt : Nat → Nat)
    (rg : UpdateRegion) (W y : Nat) (hy1 : rg.top ≤ y)
    (hy2 : y < rg.top + rg.height) :
    ∀ g sx s ptr,
      ptr = y * W + min (max sx rg.left) (rg.left + rg.width) →
      (immRow wf nxt rg y g sx s ptr).1.2 =
        y * W + min (max (sx + 8 * g) rg.left) (rg.left + rg.width) ∧
      (∀ x', sx ≤ x' → x' < sx + 8 * g → rg.contains x' y = true →
        (immRow wf nxt rg y g sx s ptr).1.1.steps (y * W + x') =
          pixelStepsAfter wf.length (s.steps (y * W + x'))
            (s.cur (y * W + x')) (nxt (y * W + x')) ∧
        (immRow wf nxt rg y g sx s ptr).1.1.cur (y * W + x') =
          pixelCurAfter wf.length (s.steps (y * W + x'))
            (s.cur (y * W + x')) (nxt (y * W + x'))) ∧
      (∀ o, (∀ x', sx ≤ x' → x' < sx + 8 * g → rg.contains x' y = true →
          o ≠ y * W + x') →
        (immRow wf nxt rg y g sx s ptr).1.1.steps o = s.steps o ∧
        (immRow wf nxt rg y g sx s ptr).1.1.cur o = s.cur o) ∧
      ((immRow wf nxt rg y g sx s ptr).1.1.finished = true ↔
        (s.finished = true ∧ ∀ x', sx ≤ x' → x' < sx + 8 * g →
          rg.contains x' y = true →
          s.cur (y * W + x') = nxt (y * W + x'))) ∧
      (∀ p q, s.active.contains p q = true →
        (immRow wf nxt rg y g sx s ptr).1.1.active.contains p q = true) ∧
      (∀ x', sx ≤ x' → x' < sx + 8 * g → rg.contains x' y = true →
        s.cur (y * W + x') ≠ nxt (y * W + x') →
        (immRow wf nxt rg y g sx s ptr).1.1.active.contains x' y = true) ∧
      (activeInv rg s.active →
        activeInv rg (immRow wf nxt rg y g sx s ptr).1.1.active) := by
  intro g
  induction g with
  | zero =>
    intro sx s ptr hptr
    refine ⟨by simpa using hptr, by omega, fun o _ => ⟨rfl, rfl⟩,
      ⟨fun h => ⟨h, by omega⟩, fun h => h.1⟩, fun p q h => h, by omega,
      fun h => h⟩
  | succ g ih =>
    intro sx s ptr hptr
    obtain ⟨g0, gA, gB, gC, gD1, gD2, gD3⟩ := immGroup_spec wf nxt rg W y
      hy1 hy2 8 sx s ptr 0 hptr
    have hrec : immRow wf nxt rg y (g + 1) sx s ptr =
        ((  (immRow wf nxt rg y g (sx + 8)
            (immGroup wf nxt rg y 8 sx s ptr 0).1
            (immGroup wf nxt rg y 8 sx s ptr 0).2.1).1.1,
          (immRow wf nxt rg y g (sx + 8)
            (immGroup wf nxt rg y 8 sx s ptr 0).1
            (immGroup wf nxt rg y 8 sx s ptr 0).2.1).1.2),
          (immGroup wf nxt rg y 8 sx s ptr 0).2.2 ::
          (immRow wf nxt rg y g (sx + 8)
            (immGroup wf nxt rg y 8 sx s ptr 0).1
            (immGroup wf nxt rg y 8 sx s ptr 0).2.1).2) := rfl
    rw [hrec]
    obtain ⟨ih0, ihA, ihB, ihC, ihD1, ihD2, ihD3⟩ := ih (sx + 8)
      (immGroup wf nxt rg y 8 sx s ptr 0).1
      (immGroup wf nxt rg y 8 sx s ptr 0).2.1 (by rw [g0])
    have hgrpwin : ∀ o, (∀ x'', sx ≤ x'' → x'' < sx + 8 →
        rg.contains x'' y = true → o ≠ y * W + x'') →
        (immGroup wf nxt rg y 8 sx s ptr 0).1.steps o = s.steps o ∧
        (immGroup wf nxt rg y 8 sx s ptr 0).1.cur o = s.cur o := gB
    refine ⟨by rw [ih0]; congr 1; omega, ?_, ?_, ?_, ?_, ?_, ?_⟩
    · intro x' h1 h2 h3
      by_cases hx8 : x' < sx + 8
      · obtain ⟨hs, hcr⟩ := gA x' h1 hx8 h3
        obtain ⟨hs2, hcr2⟩ := ihB (y * W + x') fun x'' h1'' h2'' h3'' => by
          have : x' < x'' := by omega
          omega
        rw [hs2, hcr2, hs, hcr]
        exact ⟨rfl, rfl⟩
      · obtain ⟨hs1, hcr1⟩ := hgrpwin (y * W + x') fun x'' h1'' h2'' h3'' => by
          have : x'' < x' := by omega
          omega
        obtain ⟨hs, hcr⟩ := ihA x' (by omega) (by omega) h3
        rw [hs, hcr, hs1, hcr1]
        exact ⟨rfl, rfl⟩
    · intro o hcond
      obtain ⟨hs2, hcr2⟩ := ihB o fun x'' h1'' h2'' h3'' =>
        hcond x'' (by omega) (by omega) h3''
      obtain ⟨hs1, hcr1⟩ := hgrpwin o fun x'' h1'' h2'' h3'' =>
        hcond x'' (by omega) (by omega) h3''
      rw [hs2, hcr2, hs1, hcr1]
      exact ⟨rfl, rfl⟩
    · rw [ihC, gC]
      constructor
      · rintro ⟨⟨hfin, hgrp⟩, hrest⟩
        refine ⟨hfin, fun x' h1 h2 h3 => ?_⟩
        by_cases hx8 : x' < sx + 8
        · exact hgrp x' h1 hx8 h3
        · have := hrest x' (by omega) (by omega) h3
          obtain ⟨hs1, hcr1⟩ := hgrpwin (y * W + x')
            fun x'' h1'' h2'' h3'' => by
              have : x'' < x' := by omega
              omega
          rw [hcr1] at this
          exact this
      · rintro ⟨hfin, hall⟩
        refine ⟨⟨hfin, fun x' h1 h2 h3 =>
          hall x' (by omega) (by omega) h3⟩, fun x' h1 h2 h3 => ?_⟩
        obtain ⟨hs1, hcr1⟩ := hgrpwin (y * W + x')
          fun x'' h1'' h2'' h3'' => by
            have : x'' < x' := by omega
            omega
        rw [hcr1]
        exact hall x' (by omega) (by omega) h3
    · intro p q h
      exact ihD1 p q (gD1 p q h)
    · intro x' h1 h2 h3 h4
      by_cases hx8 : x' < sx + 8
      · exact ihD1 x' y (gD2 x' h1 hx8 h3 h4)
      · obtain ⟨hs1, hcr1⟩ := hgrpwin (y * W + x')
          fun x'' h1'' h2'' h3'' => by
            have : x'' < x' := by omega
            omega
        refine ihD2 x' (by omega) (by omega) h3 ?_
        rw [hcr1]
        exact h4
    · intro hinv
      exact ihD3 (gD3 hinv)

/-- The row walk over the aligned region's groups covers exactly the
contained pixels of the row, and leaves the cursor at the region's
right edge. -/
theorem immRow_full (wf : List PhaseMatrix) (nxt : Nat → Nat)
    (rg : UpdateRegion) (W y : Nat) (hy1 : rg.top ≤ y)
    (hy2 : y < rg.top + rg.height) (s : ImmState) (ptr : Nat)
    (hptr : ptr = y * W + rg.left) :
    (immRow wf nxt rg y (((align_region rg).width + 7) / 8)
      (align_region rg).left s ptr).1.2 = y * W + (rg.left + rg.width) ∧
    (∀ x', rg.contains x' y = true →
      (immRow wf nxt rg y (((align_region rg).width + 7) / 8)
        (align_region rg).left s ptr).1.1.steps (y * W + x') =
        pixelStepsAfter wf.length (s.steps (y * W + x'))
          (s.cur (y * W + x')) (nxt (y * W + x')) ∧
      (immRow wf nxt rg y (((align_region rg).width + 7) / 8)
        (align_region rg).left s ptr).1.1.cur (y * W + x') =
        pixelCurAfter wf.length (s.steps (y * W + x'))
          (s.cur (y * W + x')) (nxt (y * W + x'))) ∧
    (∀ o, (∀ x', rg.contains x' y = true → o ≠ y * W + x') →
      (immRow wf nxt rg y (((align_region rg).width + 7) / 8)
        (align_region rg).left s ptr).1.1.steps o = s.steps o ∧
      (immRow wf nxt rg y (((align_region rg).width + 7) / 8)
        (align_region rg).left s ptr).1.1.cur o = s.cur o) ∧
    ((immRow wf nxt rg y (((align_region rg).width + 7) / 8)
      (align_region rg).left s ptr).1.1.finished = true ↔
      (s.finished = true ∧ ∀ x', rg.contains x' y = true →
        s.cur (y * W + x') = nxt (y * W + x'))) ∧
    (∀ p q, s.active.contains p q = true →
      (immRow wf nxt rg y (((align_region rg).width + 7) / 8)
        (align_region rg).left s ptr).1.1.active.contains p q = true) ∧
    (∀ x', rg.contains x' y = true →
      s.cur (y * W + x') ≠ nxt (y * W + x') →
      (immRow wf nxt rg y (((align_region rg).width + 7) / 8)
        (align_region rg).left s ptr).1.1.active.contains x' y = true) ∧
    (activeInv rg s.active →
      activeInv rg (immRow wf nxt rg y (((align_region rg).width + 7) / 8)
        (align_region rg).left s ptr).1.1.active) := by
  have hcov1 := align_region_left_le rg
  have hcov2 := align_region_right_le rg
  have hcov3 : (align_region rg).width ≤
      8 * (((align_region rg).width + 7) / 8) := by
    have hdm := Nat.div_add_mod ((align_region rg).width + 7) 8
    have hlt : ((align_region rg).width + 7) % 8 < 8 :=
      Nat.mod_lt _ (by norm_num)
    omega
  have hwin : ∀ x', rg.contains x' y = true →
      (align_region rg).left ≤ x' ∧
      x' < (align_region rg).left + 8 * (((align_region rg).width + 7) / 8) := by
    intro x' h
    rw [contains_iff] at h
    omega
  obtain ⟨r0, rA, rB, rC, rD1, rD2, rD3⟩ := immRow_spec wf nxt rg W y hy1
    hy2 (((align_region rg).width + 7) / 8) (align_region rg).left s ptr
    (by rw [hptr]; congr 1; omega)
  refine ⟨by rw [r0]; congr 1; omega, ?_, ?_, ?_, rD1, ?_, rD3⟩
  · intro x' h3
    obtain ⟨hw1, hw2⟩ := hwin x' h3
    exact rA x' hw1 hw2 h3
  · intro o hcond
    exact rB o fun x'' _ _ h3'' => hcond x'' h3''
  · rw [rC]
    constructor
    · rintro ⟨hfin, hall⟩
      refine ⟨hfin, fun x' h3 => ?_⟩
      obtain ⟨hw1, hw2⟩ := hwin x' h3
      exact hall x' hw1 hw2 h3
    · rintro ⟨hfin, hall⟩
      exact ⟨hfin, fun x' _ _ h3 => hall x' h3⟩
  · intro x' h3 h4
    obtain ⟨hw1, hw2⟩ := hwin x' h3
    exact rD2 x' hw1 hw2 h3 h4

/-- Frame-level characterisation of one immediate pass over rows
`[y, y + rows)`. -/
theorem immFrame_spec (wf : List PhaseMatrix) (nxt : Nat → Nat)
    (rg : UpdateRegion) (W : Nat) (hbound : rg.left + rg.width ≤ W) :
    ∀ rows y s ptr, rg.top ≤ y → y + rows ≤ rg.top + rg.height →
      ptr = y * W + rg.left →
      (∀ x' y', rg.contains x' y' = true → y ≤ y' → y' < y + rows →
        (immFrame wf nxt rg (align_region rg) W rows y s ptr).steps
            (y' * W + x') =
          pixelStepsAfter wf.length (s.steps (y' * W + x'))
            (s.cur (y' * W + x')) (nxt (y' * W + x')) ∧
        (immFrame wf nxt rg (align_region rg) W rows y s ptr).cur
            (y' * W + x') =
          pixelCurAfter wf.length (s.steps (y' * W + x'))
            (s.cur (y' * W + x')) (nxt (y' * W + x'))) ∧
      (∀ o, (∀ x' y', rg.contains x' y' = true → y ≤ y' → y' < y + rows →
          o ≠ y' * W + x') →
        (immFrame wf nxt rg (align_region rg) W rows y s ptr).steps o =
          s.steps o ∧
        (immFrame wf nxt rg (align_region rg) W rows y s ptr).cur o =
          s.cur o) ∧
      ((immFrame wf nxt rg (align_region rg) W rows y s ptr).finished =
          true ↔
        (s.finished = true ∧ ∀ x' y', rg.contains x' y' = true → y ≤ y' →
          y' < y + rows → s.cur (y' * W + x') = nxt (y' * W + x'))) ∧
      (∀ p q, s.active.contains p q = true →
        (immFrame wf nxt rg (align_region rg) W rows y s
          ptr).active.contains p q = true) ∧
      (∀ x' y', rg.contains x' y' = true → y ≤ y' → y' < y + rows →
        s.cur (y' * W + x') ≠ nxt (y' * W + x') →
        (immFrame wf nxt rg (align_region rg) W rows y s
          ptr).active.contains x' y' = true) ∧
      (activeInv rg s.active →
        activeInv rg (immFrame wf nxt rg (align_region rg) W rows y s
          ptr).active) := by
  intro rows
  induction rows with
  | zero =>
    intro y s ptr hy1 hy2 hptr
    refine ⟨by omega, fun o _ => ⟨rfl, rfl⟩,
      ⟨fun h => ⟨h, by omega⟩, fun h => h.1⟩, fun p q h => h, by omega,
      fun h => h⟩
  | succ rows ih =>
    intro y s ptr hy1 hy2 hptr
    have hxlt : ∀ x', rg.contains x' y = true → x' < W := by
      intro x' h
      rw [contains_iff] at h
      omega
    have hxlt' : ∀ x' y', rg.contains x' y' = true → x' < W := by
      intro x' y' h
      rw [contains_iff] at h
      omega
    obtain ⟨r0, rA, rB, rC, rD1, rD2, rD3⟩ := immRow_full wf nxt rg W y
      hy1 (by omega) s ptr hptr
    have hrec : immFrame wf nxt rg (align_region rg) W (rows + 1) y s ptr =
        immFrame wf nxt rg (align_region rg) W rows (y + 1)
          (immRow wf nxt rg y (((align_region rg).width + 7) / 8)
            (align_region rg).left s ptr).1.1
          ((immRow wf nxt rg y (((align_region rg).width + 7) / 8)
            (align_region rg).left s ptr).1.2 + (W - rg.width)) := rfl
    rw [hrec]
    have hptr2 : (immRow wf nxt rg y (((align_region rg).width + 7) / 8)
        (align_region rg).left s ptr).1.2 + (W - rg.width) =
        (y + 1) * W + rg.left := by
      rw [r0]
      have hyW : (y + 1) * W = y * W + W := by ring
      omega
    obtain ⟨ihA, ihB, ihC, ihD1, ihD2, ihD3⟩ := ih (y + 1)
      (immRow wf nxt rg y (((align_region rg).width + 7) / 8)
        (align_region rg).left s ptr).1.1 _ (by omega) (by omega) hptr2
    have hrowB : ∀ y' x', rg.contains x' y' = true → y + 1 ≤ y' →
        (immRow wf nxt rg y (((align_region rg).width + 7) / 8)
          (align_region rg).left s ptr).1.1.steps (y' * W + x') =
          s.steps (y' * W + x') ∧
        (immRow wf nxt rg y (((align_region rg).width + 7) / 8)
          (align_region rg).left s ptr).1.1.cur (y' * W + x') =
          s.cur (y' * W + x') := by
      intro y' x' h3 hy'
      refine rB (y' * W + x') fun x'' h3'' => ?_
      have := offset_lt_of_row_lt W x'' y y' x' (hxlt x'' h3'') (by omega)
      omega
    refine ⟨?_, ?_, ?_, ?_, ?_, ?_⟩
    · intro x' y' h3 hy'1 hy'2
      by_cases hyy : y' = y
      · subst hyy
        obtain ⟨hs, hcr⟩ := rA x' h3
        obtain ⟨hs2, hcr2⟩ := ihB (y' * W + x') fun x'' y'' h3'' h1'' h2'' => by
          have := offset_lt_of_row_lt W x' y' y'' x'' (hxlt x' h3) (by omega)
          omega
        rw [hs2, hcr2, hs, hcr]
        exact ⟨rfl, rfl⟩
      · obtain ⟨hs1, hcr1⟩ := hrowB y' x' h3 (by omega)
        obtain ⟨hs, hcr⟩ := ihA x' y' h3 (by omega) (by omega)
        rw [hs, hcr, hs1, hcr1]
        exact ⟨rfl, rfl⟩
    · intro o hcond
      obtain ⟨hs2, hcr2⟩ := ihB o fun x'' y'' h3'' h1'' h2'' =>
        hcond x'' y'' h3'' (by omega) (by omega)
      obtain ⟨hs1, hcr1⟩ := rB o fun x'' h3'' =>
        hcond x'' y h3'' (by omega) (by omega)
      rw [hs2, hcr2, hs1, hcr1]
      exact ⟨rfl, rfl⟩
    · rw [ihC, rC]
      constructor
      · rintro ⟨⟨hfin, hrow⟩, hrest⟩
        refine ⟨hfin, fun x' y' h3 h1 h2 => ?_⟩
        by_cases hyy : y' = y
        · subst hyy
          exact hrow x' h3
        · have := hrest x' y' h3 (by omega) (by omega)
          obtain ⟨_, hcr1⟩ := hrowB y' x' h3 (by omega)
          rw [hcr1] at this
          exact this
      · rintro ⟨hfin, hall⟩
        refine ⟨⟨hfin, fun x' h3 => hall x' y h3 (by omega) (by omega)⟩,
          fun x' y' h3 h1 h2 => ?_⟩
        obtain ⟨_, hcr1⟩ := hrowB y' x' h3 (by omega)
        rw [hcr1]
        exact hall x' y' h3 (by omega) (by omega)
    · intro p q h
      exact ihD1 p q (rD1 p q h)
    · intro x' y' h3 h1 h2 h4
      by_cases hyy : y' = y
      · subst hyy
        exact ihD1 x' y' (rD2 x' h3 h4)
      · obtain ⟨_, hcr1⟩ := hrowB y' x' h3 (by omega)
        refine ihD2 x' y' h3 (by omega) (by omega) ?_
        rw [hcr1]
        exact h4
    · intro hinv
      exact ihD3 (rD3 hinv)

theorem offset_decode (W x y : Nat) (hx : x < W) :
    (y * W + x) % W = x ∧ (y * W + x) / W = y := by
  constructor
  · rw [Nat.mul_comm, Nat.mul_add_mod, Nat.mod_eq_of_lt hx]
  · rw [Nat.mul_comm, Nat.mul_add_div (by omega), Nat.div_eq_of_lt hx,
      Nat.add_zero]

/-- One full pass of the immediate loop: contained pixels follow the
per-pixel formulas, everything else is untouched, `finished` holds iff
no contained pixel was transitioning, and the active region collects
exactly the transitioning pixels, staying inside the walked region. -/
theorem immPass_spec (wf : List PhaseMatrix) (nxt : Nat → Nat) (W : Nat)
    (rg : UpdateRegion) (steps cur : Nat → Nat)
    (hbound : rg.left + rg.width ≤ W) :
    (∀ x y, rg.contains x y = true →
      (immPass wf nxt W rg steps cur).steps (y * W + x) =
        pixelStepsAfter wf.length (steps (y * W + x)) (cur (y * W + x))
          (nxt (y * W + x)) ∧
      (immPass wf nxt W rg steps cur).cur (y * W + x) =
        pixelCurAfter wf.length (steps (y * W + x)) (cur (y * W + x))
          (nxt (y * W + x))) ∧
    (∀ o, (∀ x y, rg.contains x y = true → o ≠ y * W + x) →
      (immPass wf nxt W rg steps cur).steps o = steps o ∧
      (immPass wf nxt W rg steps cur).cur o = cur o) ∧
    ((immPass wf nxt W rg steps cur).finished = true ↔
      ∀ x y, rg.contains x y = true →
        cur (y * W + x) = nxt (y * W + x)) ∧
    (∀ x y, rg.contains x y = true →
      cur (y * W + x) ≠ nxt (y * W + x) →
      (immPass wf nxt W rg steps cur).active.contains x y = true) ∧
    activeInv rg (immPass wf nxt W rg steps cur).active := by
  have htop := align_region_top rg
  have hhei := align_region_height rg
  have hyrange : ∀ x y, rg.contains x y = true →
      (align_region rg).top ≤ y ∧ y < (align_region rg).top +
        (align_region rg).height := by
    intro x y h
    rw [contains_iff] at h
    omega
  obtain ⟨fA, fB, fC, fD1, fD2, fD3⟩ := immFrame_spec wf nxt rg W hbound
    (align_region rg).height (align_region rg).top
    (ImmState.mk steps cur true (UpdateRegion.mk 0 0 0 0))
    (rg.top * W + rg.left) (by omega) (by omega)
    (by rw [htop])
  refine ⟨?_, ?_, ?_, ?_, ?_⟩
  · intro x y h
    obtain ⟨h1, h2⟩ := hyrange x y h
    exact fA x y h h1 h2
  · intro o hcond
    exact fB o fun x' y' h3 _ _ => hcond x' y' h3
  · rw [show (immPass wf nxt W rg steps cur).finished =
      (immFrame wf nxt rg (align_region rg) W (align_region rg).height
        (align_region rg).top
        (ImmState.mk steps cur true (UpdateRegion.mk 0 0 0 0))
        (rg.top * W + rg.left)).finished from rfl, fC]
    constructor
    · rintro ⟨_, hall⟩
      intro x y h
      obtain ⟨h1, h2⟩ := hyrange x y h
      exact hall x y h h1 h2
    · intro hall
      exact ⟨rfl, fun x' y' h3 _ _ => hall x' y' h3⟩
  · intro x y h hne
    obtain ⟨h1, h2⟩ := hyrange x y h
    exact fD2 x y h h1 h2 hne
  · exact fD3 (Or.inl rfl)

/-- Main induction for the termination of the immediate loop with an
empty queue: if every transitioning pixel lies in the update's region
and carries step counter `wf.length - k` (with `1 ≤ k ≤ wf.length`),
while settled pixels carry counter 0, the loop finishes within `k + 1`
iterations emitting at most `k` more frames. -/
theorem immLoop_inv (wf : List PhaseMatrix) (W : Nat) :
    ∀ k fuel (u : Update) (steps cur nxt : Nat → Nat) (frames : Nat),
      k ≤ wf.length →
      u.region.left + u.region.width ≤ W →
      (∀ o, cur o ≠ nxt o →
        u.region.contains (o % W) (o / W) = true ∧
        steps o = wf.length - k ∧ 1 ≤ k) →
      (∀ o, cur o = nxt o → steps o = 0) →
      k + 1 ≤ fuel →
      ∃ r, generate_immediate_loop wf W fuel u steps cur nxt [] frames =
        some r ∧ r.frames ≤ frames + k := by
  intro k
  induction k with
  | zero =>
    intro fuel u steps cur nxt frames hk hbound huneq heq hfuel
    obtain ⟨f, rfl⟩ : ∃ f, fuel = f + 1 := ⟨fuel - 1, by omega⟩
    have hall : ∀ x y, u.region.contains x y = true →
        cur (y * W + x) = nxt (y * W + x) := by
      intro x y h
      by_contra hne
      exact absurd (huneq _ hne).2.2 (by omega)
    have hfin : (immPass wf nxt W u.region steps cur).finished = true :=
      (immPass_spec wf nxt W u.region steps cur hbound).2.2.1.mpr hall
    have hloop : generate_immediate_loop wf W (f + 1) u steps cur nxt []
        frames =
        (if (immPass wf nxt W u.region steps cur).finished then
          some (ImmResult.mk (immPass wf nxt W u.region steps cur).steps
            (immPass wf nxt W u.region steps cur).cur frames [])
        else generate_immediate_loop wf W f
          { u with region := (immPass wf nxt W u.region steps cur).active }
          (immPass wf nxt W u.region steps cur).steps
          (immPass wf nxt W u.region steps cur).cur nxt [] (frames + 1)) :=
      rfl
    refine ⟨ImmResult.mk (immPass wf nxt W u.region steps cur).steps
      (immPass wf nxt W u.region steps cur).cur frames [], ?_, ?_⟩
    · rw [hloop, if_pos hfin]
    · dsimp only
      omega
  | succ k ih =>
    intro fuel u steps cur nxt frames hk hbound huneq heq hfuel
    obtain ⟨f, rfl⟩ : ∃ f, fuel = f + 1 := ⟨fuel - 1, by omega⟩
    obtain ⟨pA, pB, pC, pD2, pD3⟩ :=
      immPass_spec wf nxt W u.region steps cur hbound
    have hloop : generate_immediate_loop wf W (f + 1) u steps cur nxt []
        frames =
        (if (immPass wf nxt W u.region steps cur).finished then
          some (ImmResult.mk (immPass wf nxt W u.region steps cur).steps
            (immPass wf nxt W u.region steps cur).cur frames [])
        else generate_immediate_loop wf W f
          { u with region := (immPass wf nxt W u.region steps cur).active }
          (immPass wf nxt W u.region steps cur).steps
          (immPass wf nxt W u.region steps cur).cur nxt [] (frames + 1)) :=
      rfl
    by_cases hfin : (immPass wf nxt W u.region steps cur).finished = true
    · refine ⟨ImmResult.mk (immPass wf nxt W u.region steps cur).steps
        (immPass wf nxt W u.region steps cur).cur frames [], ?_, ?_⟩
      · rw [hloop, if_pos hfin]
      · dsimp only
        omega
    · have hxlt : ∀ x y, u.region.contains x y = true → x < W := by
        intro x y h
        rw [contains_iff] at h
        omega
      have hbound' : (immPass wf nxt W u.region steps cur).active.left +
          (immPass wf nxt W u.region steps cur).active.width ≤ W := by
        rcases pD3 with h | h
        · rw [h]
          dsimp only
          omega
        · omega
      have huneq' : ∀ o,
          (immPass wf nxt W u.region steps cur).cur o ≠ nxt o →
          (immPass wf nxt W u.region steps cur).active.contains (o % W)
            (o / W) = true ∧
          (immPass wf nxt W u.region steps cur).steps o =
            wf.length - k ∧ 1 ≤ k := by
        intro o hne
        by_cases hto : ∀ x y, u.region.contains x y = true → o ≠ y * W + x
        · obtain ⟨_, hcr⟩ := pB o hto
          rw [hcr] at hne
          obtain ⟨hcont, _, _⟩ := huneq o hne
          have hxW : o % W < W := by
            have := hxlt (o % W) (o / W) hcont
            exact this
          exact absurd ((Nat.div_add_mod o W).symm.trans (by ring_nf) :
            o = o / W * W + o % W) (hto (o % W) (o / W) hcont)
        · push_neg at hto
          obtain ⟨x, y, hc, ho⟩ := hto
          subst ho
          obtain ⟨hs, hcr⟩ := pA x y hc
          rw [hcr] at hne
          by_cases hcb : cur (y * W + x) = nxt (y * W + x)
          · rw [pixelCurAfter, if_neg (by simpa using hcb)] at hne
            exact absurd hcb hne
          · obtain ⟨hcont, hst, _⟩ := huneq _ hcb
            by_cases hcommit : steps (y * W + x) + 1 = wf.length
            · rw [pixelCurAfter, if_pos hcb, if_pos hcommit] at hne
              exact absurd rfl hne
            · have hk1 : 1 ≤ k := by omega
              obtain ⟨hd1, hd2⟩ := offset_decode W x y (hxlt x y hc)
              rw [hd1, hd2]
              refine ⟨pD2 x y hc hcb, ?_, hk1⟩
              rw [hs, pixelStepsAfter, if_pos hcb, if_neg hcommit, hst]
              omega
      have heq' : ∀ o,
          (immPass wf nxt W u.region steps cur).cur o = nxt o →
          (immPass wf nxt W u.region steps cur).steps o = 0 := by
        intro o hoeq
        by_cases hto : ∀ x y, u.region.contains x y = true → o ≠ y * W + x
        · obtain ⟨hst, hcr⟩ := pB o hto
          rw [hcr] at hoeq
          rw [hst]
          exact heq o hoeq
        · push_neg at hto
          obtain ⟨x, y, hc, ho⟩ := hto
          subst ho
          obtain ⟨hs, hcr⟩ := pA x y hc
          rw [hcr] at hoeq
          by_cases hcb : cur (y * W + x) = nxt (y * W + x)
          · rw [hs, pixelStepsAfter, if_neg (by simpa using hcb)]
            exact heq _ hcb
          · by_cases hcommit : steps (y * W + x) + 1 = wf.length
            · rw [hs, pixelStepsAfter, if_pos hcb, if_pos hcommit]
            · rw [pixelCurAfter, if_pos hcb, if_neg hcommit] at hoeq
              exact absurd hoeq hcb
      obtain ⟨r, hr, hrf⟩ := ih f
        { u with region := (immPass wf nxt W u.region steps cur).active }
        (immPass wf nxt W u.region steps cur).steps
        (immPass wf nxt W u.region steps cur).cur nxt (frames + 1)
        (by omega) hbound' huneq' heq' (by omega)
      refine ⟨r, ?_, by omega⟩
      rw [hloop, if_neg (by simpa using hfin)]
      exact hr

/-- C5 amended: for every non-empty finite waveform and every initial
`current_intensity`, with no further pending updates arriving,
`generate_immediate` terminates within `waveform.size() + 1` iterations
of its loop (the last iteration only verifies that no pixel is still
in transition), emitting at most `waveform.size()` frames. -/
theorem generate_immediate_terminates (wf : List PhaseMatrix) (W : Nat)
    (u : Update) (cur : Nat → Nat) (hwf : wf ≠ [])
    (hbound : u.region.left + u.region.width ≤ W) :
    ∃ r, generate_immediate wf W u cur [] (wf.length + 1) = some r ∧
      r.frames ≤ wf.length := by
  have hN : 1 ≤ wf.length := by
    cases wf with
    | nil => exact absurd rfl hwf
    | cons a l => simp
  have huneq : ∀ o, cur o ≠ (u.apply W cur) o →
      u.region.contains (o % W) (o / W) = true ∧
      (fun _ => 0 : Nat → Nat) o = wf.length - wf.length ∧
      1 ≤ wf.length := by
    intro o hne
    refine ⟨?_, by simp, hN⟩
    by_cases hcont : u.region.contains (o % W) (o / W) = true
    · exact hcont
    · exfalso
      refine hne ?_
      unfold Update.apply
      rw [if_neg (by simpa using hcont)]
  obtain ⟨r, hr, hrf⟩ := immLoop_inv wf W wf.length (wf.length + 1) u
    (fun _ => 0) cur (u.apply W cur) 0 (Nat.le_refl _) hbound huneq
    (fun o _ => rfl) (Nat.le_refl _)
  exact ⟨r, hr, by simpa using hrf⟩

theorem generate_immediate_terminates_witness :
    ∃ r, generate_immediate [fun _ _ => Phase.Black] 8
      (Update.mk [0] 0 true (UpdateRegion.mk 0 0 8 1)
        [1, 1, 1, 1, 1, 1, 1, 1])
      (fun _ => 0) [] 2 = some r ∧ r.frames ≤ 1 :=
  generate_immediate_terminates [fun _ _ => Phase.Black] 8
    (Update.mk [0] 0 true (UpdateRegion.mk 0 0 8 1)
      [1, 1, 1, 1, 1, 1, 1, 1])
    (fun _ => 0) (by simp) (by decide)

end Waved
